import Mathlib

/-!
Verification of the autocomplete service (src/src/autocomplete.go).

The Go program tokenizes a corpus file into lowercase alphabetic words,
counts word frequencies into a map, and serves an HTTP endpoint that
returns, for a query term, the matching words ranked by frequency.

Shallow embedding conventions:
* Go strings are modelled as Lean `String` (sequences of `Char`).
* The Go map `map[string]int` is modelled as an association list
  `List (String × Int)`; for `complete`, which ranges over the map, the
  list order models the iteration order chosen by the Go runtime for
  that particular `range` loop (Go map iteration order is randomized,
  so two calls on the same map may present entries in different orders).
* `sort.SliceStable` is modelled by `stableSort` below, a faithful
  rendering of the algorithm in Go's standard library `sort` package
  (insertion sort on blocks of 20, then symmerge passes).  Loops are
  written with explicit fuel so that every definition is structural and
  kernel-reducible; the entry points supply fuel that provably exceeds
  the number of iterations the Go loops perform.
* Fallible operations (the out-of-bounds slice in `firstN`) return
  `Option`, `none` modelling a Go panic.
-/

namespace Autocomplete

/-- Whitespace class of Go's regexp `\s`, namely `[\t\n\f\r ]`. -/
def goWS (c : Char) : Bool :=
  c == ' ' || c == '\t' || c == '\n' || c == '\r' || c == '\x0C'

/-- Character filter of `parseFile`: the regexp `[^a-zA-Z\s]` is replaced by
the empty string, so exactly the ASCII letters and `\s` whitespace remain. -/
def keepChar (c : Char) : Bool :=
  c.isAlpha || goWS c

/-- Splitting on the regexp `\s+` as Go's `regexp.Split(s, -1)` does: the
string is cut around every maximal run of whitespace, and the (possibly
empty) segments between the cuts are returned.  An empty input yields one
empty segment, a leading or trailing run yields an empty first or last
segment.  The fuel argument makes the recursion structural; callers pass
fuel larger than the number of whitespace runs, so it never runs out. -/
def splitWSF : Nat → List Char → List (List Char)
  | 0, l => [l.takeWhile (fun c => !goWS c)]
  | fuel+1, l =>
      let w := l.takeWhile (fun c => !goWS c)
      let t := l.dropWhile (fun c => !goWS c)
      match t with
      | [] => [w]
      | _ :: _ => w :: splitWSF fuel (t.dropWhile goWS)

/-- The pure core of `parseFile` (src line 70): the file content is filtered
through the regexp `[^a-zA-Z\s] -> ""`, lowercased (`strings.ToLower`; only
ASCII remains after the filter, where Lean's `Char.toLower` agrees with Go),
and split on runs of whitespace.  Reading the file and logging are I/O and
are modelled by passing the content directly. -/
def parseFile (content : String) : List String :=
  (splitWSF (content.toList.length + 1)
    ((content.toList.filter keepChar).map Char.toLower)).map List.asString

/-- Lookup in the association-list model of a Go map: `v, ok := m[k]`. -/
def mapGet : List (String × Int) → String → Option Int
  | [], _ => none
  | (k', v') :: rest, k => if k' = k then some v' else mapGet rest k

/-- Store in the association-list model of a Go map: `m[k] = v` replaces the
binding if the key is present and appends a new binding otherwise. -/
def mapSet : List (String × Int) → String → Int → List (String × Int)
  | [], k, v => [(k, v)]
  | (k', v') :: rest, k, v =>
      if k' = k then (k, v) :: rest else (k', v') :: mapSet rest k v

/-- The `countWords` function (src line 38): fold over the word list, looking
each word up and either incrementing its count or starting it at 1. -/
def countWords (words : List String) : List (String × Int) :=
  words.foldl
    (fun frequencyMap word =>
      match mapGet frequencyMap word with
      | some count => mapSet frequencyMap word (count + 1)
      | none => mapSet frequencyMap word 1)
    []

/-- The `firstN` function (src line 150).  Go's slice expression `words[:n]`
panics when `n` is negative, which the guarding branch `n < len(words)` does
not exclude; the panic is modelled by `none`. -/
def firstN (words : List String) (n : Int) : Option (List String) :=
  if n < (words.length : Int) then
    if 0 ≤ n then some (words.take n.toNat) else none
  else
    some words

/-- The `WordCount` struct (src line 20). -/
structure WordCount where
  Word : String
  Count : Int
deriving DecidableEq

/-- Default element used by out-of-range reads; the algorithms below only
read in-range positions when called from `stableSort` on valid arguments. -/
def dWC : WordCount := ⟨"", 0⟩

/-- The comparison closure passed to `sort.SliceStable` in `complete`
(src line 124): `!(wordCounts[i].Count < wordCounts[j].Count)`.  Note this
is `Count i ≥ Count j`, which is not a strict ordering: it returns true in
both directions on equal counts. -/
def wcLess (x y : WordCount) : Bool :=
  if x.Count < y.Count then false else true

/-- Indexed form of the comparator, as `sort.SliceStable` uses it. -/
def lessIdx (l : List WordCount) (i j : Nat) : Bool :=
  wcLess (l.getD i dWC) (l.getD j dWC)

/-- Replace the segment `[a, b)` of `l` by `x` (the in-place mutations of
Go's sort are all expressed through this combinator and `seg`). -/
def splice (l : List WordCount) (a b : Nat) (x : List WordCount) :
    List WordCount :=
  l.take a ++ x ++ l.drop b

/-- The segment `[a, b)` of `l`. -/
def seg (l : List WordCount) (a b : Nat) : List WordCount :=
  (l.take b).drop a

/-- One `data.Swap(j, j+1)` of adjacent positions, as used by the insertion
sort; out-of-range swaps (which would panic in Go) leave the list unchanged
and never occur in calls reachable from `stableSort`. -/
def swpAdj (l : List WordCount) (j : Nat) : List WordCount :=
  if j + 1 < l.length then
    splice l j (j + 2) [l.getD (j + 1) dWC, l.getD j dWC]
  else l

/-- The inner loop of Go's `insertionSort`:
`for j := i; j > a && data.Less(j, j-1); j-- { data.Swap(j, j-1) }`. -/
def insLoop : List WordCount → Nat → Nat → List WordCount
  | l, _, 0 => l
  | l, a, j+1 =>
      if a < j + 1 && lessIdx l (j + 1) j then insLoop (swpAdj l j) a j
      else l

/-- The outer loop of Go's `insertionSort`, with fuel (the entry point
passes `b - a`, which bounds the number of loop tests). -/
def insOuter : Nat → List WordCount → Nat → Nat → Nat → List WordCount
  | 0, l, _, _, _ => l
  | fuel+1, l, a, b, i =>
      if i < b then insOuter fuel (insLoop l a i) a b (i + 1) else l

/-- Go's `insertionSort(data, a, b)` from the standard `sort` package:
`for i := a+1; i < b; i++ { inner loop at i }`. -/
def insertionSort (l : List WordCount) (a b : Nat) : List WordCount :=
  insOuter (b - a) l a b (a + 1)

/-- Binary-search loop shared by the three searches in Go's `symMerge`:
`for lo < hi { h := (lo+hi)/2; if B h { lo = h+1 } else { hi = h } }`.
Fuel `hi - lo` bounds the iteration count. -/
def bsearchB (B : Nat → Bool) : Nat → Nat → Nat → Nat
  | 0, lo, _ => lo
  | fuel+1, lo, hi =>
      if lo < hi then
        let h := (lo + hi) / 2
        if B h then bsearchB B fuel (h + 1) hi else bsearchB B fuel lo h
      else lo

/-- Move `data[a]` to position `i-1`, shifting `data[a+1:i]` down by one:
the net effect of `for k := a; k < i-1; k++ { data.Swap(k, k+1) }` in the
first special case of Go's `symMerge`. -/
def case1move (l : List WordCount) (a i : Nat) : List WordCount :=
  if a < i ∧ i ≤ l.length then
    splice l a i (seg l (a + 1) i ++ [l.getD a dWC])
  else l

/-- Move `data[b-1]` to position `i`, shifting `data[i:b-1]` up by one: the
net effect of `for k := b-1; k > i; k-- { data.Swap(k, k-1) }` in the second
special case of Go's `symMerge`. -/
def case2move (l : List WordCount) (i b : Nat) : List WordCount :=
  if i < b ∧ b ≤ l.length then
    splice l i b ([l.getD (b - 1) dWC] ++ seg l i (b - 1))
  else l

/-- Go's `rotate(data, a, m, b)`: exchange the consecutive blocks
`data[a:m]` and `data[m:b]` (Go performs this in place with a juggling
`swapRange` loop; the net effect, stated in the comment on `rotate` in the
Go source, is the block exchange modelled here). -/
def rotateSeg (l : List WordCount) (a m b : Nat) : List WordCount :=
  if a ≤ m ∧ m ≤ b ∧ b ≤ l.length then
    splice l a b (seg l m b ++ seg l a m)
  else l

/-- Go's `symMerge(data, a, m, b)`: merge the sorted blocks `data[a:m]` and
`data[m:b]` by the symmerge algorithm.  The two special cases insert a
single element by binary search; the general case finds the exchange
boundary by binary search, rotates, and recurses.  The fuel bounds the
recursion depth (the interval strictly shrinks, so `b - a` suffices). -/
def symMergeF : Nat → Nat → Nat → Nat → List WordCount → List WordCount
  | 0, _, _, _, l => l
  | fuel+1, a, m, b, l =>
      if m - a = 1 then
        let i := bsearchB (fun h => lessIdx l h a) (b - m) m b
        case1move l a i
      else if b - m = 1 then
        let i := bsearchB (fun h => !lessIdx l m h) (m - a) a m
        case2move l i b
      else
        let mid := (a + b) / 2
        let n := mid + m
        let s0 := if mid < m then n - b else a
        let r0 := if mid < m then mid else m
        let p := n - 1
        let start := bsearchB (fun c => !lessIdx l (p - c) c) (r0 - s0) s0 r0
        let en := n - start
        let l1 := if start < m ∧ m < en then rotateSeg l start m en else l
        let l2 := if a < start ∧ start < mid then symMergeF fuel a start mid l1
                  else l1
        if mid < en ∧ en < b then symMergeF fuel mid en b l2 else l2

/-- First phase of Go's `stable`: insertion sort on consecutive blocks of
20, then on the final partial block
(`a, b := 0, blockSize; for b <= n { insertionSort(data, a, b); a = b;
b += blockSize }; insertionSort(data, a, n)`). -/
def insBlocks : Nat → Nat → Nat → Nat → List WordCount → List WordCount
  | 0, _, _, _, l => l
  | fuel+1, a, b, n, l =>
      if b ≤ n then insBlocks fuel b (b + 20) n (insertionSort l a b)
      else insertionSort l a n

/-- One merging pass of Go's `stable`:
`a, b = 0, 2*blockSize; for b <= n { symMerge(data, a, a+blockSize, b);
a = b; b += 2*blockSize }; if m := a+blockSize; m < n
{ symMerge(data, a, m, n) }`. -/
def mergePass : Nat → Nat → Nat → Nat → Nat → List WordCount → List WordCount
  | 0, _, _, _, _, l => l
  | fuel+1, a, b, bs, n, l =>
      if b ≤ n then
        mergePass fuel b (b + 2 * bs) bs n (symMergeF (b - a) a (a + bs) b l)
      else if a + bs < n then symMergeF (n - a) a (a + bs) n l
      else l

/-- The doubling loop of Go's `stable`:
`for blockSize < n { one merging pass; blockSize *= 2 }`. -/
def mergeAll : Nat → Nat → Nat → List WordCount → List WordCount
  | 0, _, _, l => l
  | fuel+1, bs, n, l =>
      if bs < n then mergeAll fuel (2 * bs) n (mergePass (n + 1) 0 (2 * bs) bs n l)
      else l

/-- Go's `sort.SliceStable` (the `stable` function of the `sort` package,
instantiated at the comparator of `complete`): insertion sort on blocks of
20 followed by symmerge passes with doubling block size. -/
def stableSort (l : List WordCount) : List WordCount :=
  mergeAll (l.length + 1) 20 l.length (insBlocks (l.length + 1) 0 20 l.length l)

/-- Go's `strings.HasPrefix(word, pre)`: byte-sequence prefix test,
modelled on the character sequences of the Lean strings. -/
def hasPre (pre w : String) : Bool :=
  pre.toList.isPrefixOf w.toList

/-- The candidate-collection loop of `complete` (src lines 115-121): scan
the map entries in the order given by the list (modelling the iteration
order of the `range` loop) and keep those whose word has the prefix. -/
def matchWC (pfx : String) (frequencies : List (String × Int)) :
    List WordCount :=
  (frequencies.filter (fun kv => hasPre pfx kv.1)).map
    (fun kv => ⟨kv.1, kv.2⟩)

/-- The `complete` function (src line 112) up to the final projection: the
matching `WordCount` entries sorted by `sort.SliceStable` with the
comparator `wcLess`. -/
def completeWC (pfx : String) (frequencies : List (String × Int)) :
    List WordCount :=
  stableSort (matchWC pfx frequencies)

/-- The `complete` function (src line 112): matching entries, sorted, then
projected to their words. -/
def complete (pfx : String) (frequencies : List (String × Int)) :
    List String :=
  (completeWC pfx frequencies).map WordCount.Word

/-- The count stored at position `i` (out-of-range positions read the
default element). -/
def cnt (l : List WordCount) (i : Nat) : Int :=
  (l.getD i dWC).Count

/-- The segment `[a, b)` of `l` is sorted by count, descending (the order
`complete` promises for its output). -/
def SortedSeg (l : List WordCount) (a b : Nat) : Prop :=
  ∀ j, j < b → ∀ i, i ≤ j → a ≤ i → cnt l j ≤ cnt l i

/-- Every element of the segment `[a, mid)` has a count at least that of
every element of the segment `[mid, b)` (the exchange invariant of the
symmerge step). -/
def CrossGe (l : List WordCount) (a mid b : Nat) : Prop :=
  ∀ x ∈ seg l a mid, ∀ y ∈ seg l mid b, y.Count ≤ x.Count

/-- All blocks of size `bs` (clipped at `n`) are sorted: the invariant of
the merging phases of Go's `stable`. -/
def Blocks (bs n : Nat) (l : List WordCount) : Prop :=
  ∀ q : Nat, SortedSeg l (q * bs) (min ((q + 1) * bs) n)

/-- An incoming HTTP request as `respond` (src line 171) consumes it: the
method, the parsed URL path, and the `term` query parameter
(`r.URL.Query().Get("term")` returns the empty string when the parameter
is absent). -/
structure Request where
  method : String
  path : String
  term : String

/-- The JSON body shapes written by `respond`: the literal
`{"message": ...}` object or the `{"matches": [...]}` object holding the
serialized word list. -/
inductive Body where
  | message (text : String)
  | matches (words : List String)
deriving DecidableEq

/-- An HTTP response: status code and JSON body.  `Content-Type` is set to
`application/json` unconditionally and is not modelled. -/
structure Response where
  status : Nat
  body : Body
deriving DecidableEq

/-- The `respond` handler (src line 171).  A request is valid when the
method is `GET`, the path is `/autocomplete` and `term` is non-empty; an
invalid request gets status 400 (`http.StatusBadRequest`) with the
`Unsupported request` message; a valid one gets status 200 with the top 25
completions.  `json.Marshal` cannot fail on a `[]string`, so the
`http.StatusInternalServerError` branch of the Go code is dead; the `none`
result models the panic that `firstN` would raise on a negative limit,
which cannot happen for the literal 25. -/
def respond (countMap : List (String × Int)) (r : Request) : Option Response :=
  let validRequest :=
    r.method == "GET" && r.path == "/autocomplete" && r.term != ""
  if validRequest then
    match firstN (complete r.term countMap) 25 with
    | some top25 => some ⟨200, Body.matches top25⟩
    | none => none
  else
    some ⟨400, Body.message "Unsupported request"⟩

theorem seg_length (l : List WordCount) (a b : Nat) (hab : a ≤ b)
    (hb : b ≤ l.length) : (seg l a b).length = b - a := by
  simp [seg, List.length_take]
  omega

theorem seg_getD (l : List WordCount) (a b i : Nat) (h : a + i < b)
    (hb : b ≤ l.length) :
    (seg l a b).getD i dWC = l.getD (a + i) dWC := by
  rw [List.getD_eq_getElem?_getD, List.getD_eq_getElem?_getD]
  unfold seg
  rw [List.getElem?_drop, List.getElem?_take, if_pos (by omega)]

theorem seg_take_append (l : List WordCount) (a b : Nat) (hab : a ≤ b)
    (hb : b ≤ l.length) : l.take a ++ seg l a b = l.take b := by
  unfold seg
  conv_rhs => rw [← List.take_append_drop a (l.take b)]
  rw [List.take_take, Nat.min_eq_left hab]

theorem splice_seg_eq (l : List WordCount) (a b : Nat) (hab : a ≤ b)
    (hb : b ≤ l.length) : splice l a b (seg l a b) = l := by
  unfold splice
  rw [seg_take_append l a b hab hb, List.take_append_drop]

theorem splice_perm (l : List WordCount) (a b : Nat) (x : List WordCount)
    (hab : a ≤ b) (hb : b ≤ l.length) (hx : x.Perm (seg l a b)) :
    (splice l a b x).Perm l := by
  have h1 : (splice l a b x).Perm (splice l a b (seg l a b)) := by
    unfold splice
    exact (List.Perm.append_left _ hx).append (List.Perm.refl _)
  rw [splice_seg_eq l a b hab hb] at h1
  exact h1

theorem splice_length (l : List WordCount) (a b : Nat) (x : List WordCount)
    (hab : a ≤ b) (hb : b ≤ l.length) (hx : x.length = b - a) :
    (splice l a b x).length = l.length := by
  simp [splice, List.length_take]
  omega

theorem splice_getD_left (l : List WordCount) (a b : Nat)
    (x : List WordCount) (i : Nat) (hi : i < a) (ha : a ≤ l.length) :
    (splice l a b x).getD i dWC = l.getD i dWC := by
  have h1 : (l.take a).length = a := by simp [List.length_take]; omega
  rw [List.getD_eq_getElem?_getD, List.getD_eq_getElem?_getD]
  unfold splice
  rw [List.getElem?_append, if_pos (by rw [List.length_append, h1]; omega),
    List.getElem?_append, if_pos (by rw [h1]; omega),
    List.getElem?_take, if_pos hi]

theorem splice_getD_mid (l : List WordCount) (a b : Nat)
    (x : List WordCount) (i : Nat) (ha : a ≤ i) (hi : i < a + x.length)
    (hal : a ≤ l.length) :
    (splice l a b x).getD i dWC = x.getD (i - a) dWC := by
  have h1 : (l.take a).length = a := by simp [List.length_take]; omega
  rw [List.getD_eq_getElem?_getD, List.getD_eq_getElem?_getD]
  unfold splice
  rw [List.getElem?_append, if_pos (by rw [List.length_append, h1]; omega),
    List.getElem?_append, if_neg (by rw [h1]; omega), h1]

theorem splice_getD_right (l : List WordCount) (a b : Nat)
    (x : List WordCount) (i : Nat) (hx : x.length = b - a) (hab : a ≤ b)
    (hb : b ≤ l.length) (hi : b ≤ i) :
    (splice l a b x).getD i dWC = l.getD i dWC := by
  have h1 : (l.take a).length = a := by simp [List.length_take]; omega
  have h2 : (l.take a ++ x).length = b := by rw [List.length_append, h1]; omega
  rw [List.getD_eq_getElem?_getD, List.getD_eq_getElem?_getD]
  unfold splice
  rw [List.getElem?_append, if_neg (by rw [h2]; omega), h2,
    List.getElem?_drop]
  congr 2
  omega

theorem seg_cons (l : List WordCount) (a b : Nat) (hab : a < b)
    (hb : b ≤ l.length) :
    seg l a b = l.getD a dWC :: seg l (a + 1) b := by
  apply List.ext_getElem?
  intro n
  rcases eq_or_ne n 0 with h0 | h0
  · subst h0
    have h1 : (seg l a b).length = b - a := seg_length l a b (by omega) hb
    have h2 : (seg l a b)[0]? = some ((seg l a b).getD 0 dWC) := by
      rw [List.getD_eq_getElem?_getD, List.getElem?_eq_getElem (by omega)]
      simp
    rw [h2, seg_getD l a b 0 (by omega) hb]
    simp
  · obtain ⟨n', rfl⟩ := Nat.exists_eq_succ_of_ne_zero h0
    rw [List.getElem?_cons_succ]
    unfold seg
    rw [List.getElem?_drop, List.getElem?_drop]
    congr 1
    omega

theorem seg_append (l : List WordCount) (a m b : Nat) (ham : a ≤ m)
    (hmb : m ≤ b) (hb : b ≤ l.length) :
    seg l a m ++ seg l m b = seg l a b := by
  unfold seg
  have h1 : l.take m = List.take m (l.take b) := by
    rw [List.take_take, Nat.min_eq_left hmb]
  rw [h1]
  have h2 : a ≤ (List.take m (l.take b)).length := by
    rw [← h1]
    simp [List.length_take]
    omega
  conv_rhs => rw [← List.take_append_drop m (l.take b)]
  rw [List.drop_append_of_le_length h2]

theorem seg_snoc (l : List WordCount) (a b : Nat) (hab : a < b)
    (hb : b ≤ l.length) :
    seg l a b = seg l a (b - 1) ++ [l.getD (b - 1) dWC] := by
  have h1 : seg l (b - 1) b = [l.getD (b - 1) dWC] := by
    rw [seg_cons l (b - 1) b (by omega) hb]
    have : seg l b b = [] := by
      have := seg_length l b b (le_refl b) hb
      cases h : seg l b b with
      | nil => rfl
      | cons hd tl => rw [h] at this; simp at this
    have hb1 : b - 1 + 1 = b := by omega
    rw [hb1, this]
  rw [← h1, seg_append l a (b - 1) b (by omega) (by omega) hb]

theorem mapGet_mapSet_self (m : List (String × Int)) (k : String) (v : Int) :
    mapGet (mapSet m k v) k = some v := by
  induction m with
  | nil => simp [mapSet, mapGet]
  | cons hd tl ih =>
      obtain ⟨k', v'⟩ := hd
      by_cases h : k' = k <;> simp [mapSet, mapGet, h, ih]

theorem mapGet_mapSet_ne (m : List (String × Int)) (k k' : String) (v : Int)
    (h : k ≠ k') : mapGet (mapSet m k v) k' = mapGet m k' := by
  induction m with
  | nil => simp [mapSet, mapGet, h]
  | cons hd tl ih =>
      obtain ⟨k₀, v₀⟩ := hd
      by_cases h₀ : k₀ = k
      · subst h₀
        simp [mapSet, mapGet, h]
      · simp only [mapSet, if_neg h₀, mapGet]
        by_cases h₁ : k₀ = k' <;> simp [h₁, ih]

theorem sum_mapSet_none (m : List (String × Int)) (k : String) (v : Int)
    (h : mapGet m k = none) :
    ((mapSet m k v).map Prod.snd).sum = (m.map Prod.snd).sum + v := by
  induction m with
  | nil => simp [mapSet]
  | cons hd tl ih =>
      obtain ⟨k₀, v₀⟩ := hd
      by_cases h₀ : k₀ = k
      · simp [mapGet, h₀] at h
      · simp only [mapGet, if_neg h₀] at h
        simp [mapSet, if_neg h₀, ih h]
        ring

theorem sum_mapSet_some (m : List (String × Int)) (k : String) (v c : Int)
    (h : mapGet m k = some c) :
    ((mapSet m k v).map Prod.snd).sum = (m.map Prod.snd).sum + v - c := by
  induction m with
  | nil => simp [mapGet] at h
  | cons hd tl ih =>
      obtain ⟨k₀, v₀⟩ := hd
      by_cases h₀ : k₀ = k
      · simp only [mapGet, if_pos h₀, Option.some.injEq] at h
        subst h
        simp [mapSet, if_pos h₀]
        ring
      · simp only [mapGet, if_neg h₀] at h
        simp [mapSet, if_neg h₀, ih h]
        ring

/-- The invariant carried through `countWords`' loop: the accumulated map
holds exactly the occurrence counts of the words processed so far, and its
counts sum to the number of processed words. -/
def CountInv (m : List (String × Int)) (processed : List String) : Prop :=
  (∀ w, mapGet m w =
      if processed.count w = 0 then none else some (processed.count w : Int)) ∧
  (m.map Prod.snd).sum = processed.length

theorem countInv_step (m : List (String × Int)) (processed : List String)
    (word : String) (h : CountInv m processed) :
    CountInv
      (match mapGet m word with
        | some count => mapSet m word (count + 1)
        | none => mapSet m word 1)
      (processed ++ [word]) := by
  obtain ⟨hget, hsum⟩ := h
  have hw := hget word
  by_cases h0 : processed.count word = 0
  · rw [h0, if_pos rfl] at hw
    rw [hw]
    constructor
    · intro w
      by_cases hww : word = w
      · subst hww
        rw [mapGet_mapSet_self]
        simp [List.count_append, h0]
      · rw [mapGet_mapSet_ne _ _ _ _ hww, hget w]
        have hne : ¬(w = word) := fun h => hww h.symm
        have hnm : w ∉ [word] := by simpa using hne
        have hcnt : (processed ++ [word]).count w = processed.count w := by
          rw [List.count_append, List.count_eq_zero.mpr hnm]
          omega
        rw [hcnt]
    · rw [sum_mapSet_none _ _ _ hw, hsum]
      have hlen : (processed ++ [word]).length = processed.length + 1 := by simp
      rw [hlen]
      push_cast
      ring
  · rw [if_neg h0] at hw
    rw [hw]
    constructor
    · intro w
      by_cases hww : word = w
      · subst hww
        rw [mapGet_mapSet_self]
        have : (processed ++ [word]).count word = processed.count word + 1 := by
          simp [List.count_append]
        rw [this]
        have : processed.count word + 1 ≠ 0 := by omega
        simp [this]
      · rw [mapGet_mapSet_ne _ _ _ _ hww, hget w]
        have hne : ¬(w = word) := fun h => hww h.symm
        have hnm : w ∉ [word] := by simpa using hne
        have hcnt : (processed ++ [word]).count w = processed.count w := by
          rw [List.count_append, List.count_eq_zero.mpr hnm]
          omega
        rw [hcnt]
    · rw [sum_mapSet_some _ _ _ _ hw, hsum]
      have hlen : (processed ++ [word]).length = processed.length + 1 := by simp
      rw [hlen]
      push_cast
      ring

theorem countWords_foldl_inv (ws : List String) :
    ∀ (m : List (String × Int)) (processed : List String),
      CountInv m processed →
      CountInv
        (ws.foldl
          (fun frequencyMap word =>
            match mapGet frequencyMap word with
            | some count => mapSet frequencyMap word (count + 1)
            | none => mapSet frequencyMap word 1)
          m)
        (processed ++ ws) := by
  induction ws with
  | nil => intro m processed h; simpa using h
  | cons w ws ih =>
      intro m processed h
      have h' := countInv_step m processed w h
      have := ih _ (processed ++ [w]) h'
      simpa using this

theorem countWords_inv (words : List String) :
    CountInv (countWords words) words := by
  have h0 : CountInv [] [] := by
    constructor
    · intro w; simp [mapGet]
    · simp
  have := countWords_foldl_inv words [] [] h0
  simpa [countWords] using this

/-- C7: `countWords` maps each distinct token to its exact number of
occurrences, has no entry for an absent token, the counts sum to the length
of the input, and on `["a","b","a","c","a"]` it yields `{a:3, b:1, c:1}`. -/
theorem countWords_exact (words : List String) :
    (∀ w, mapGet (countWords words) w =
        if words.count w = 0 then none else some (words.count w : Int)) ∧
    ((countWords words).map Prod.snd).sum = words.length ∧
    countWords ["a", "b", "a", "c", "a"] = [("a", 3), ("b", 1), ("c", 1)] := by
  obtain ⟨hget, hsum⟩ := countWords_inv words
  exact ⟨hget, hsum, by decide⟩

/-- C8: every count stored by `countWords` is at least 1, at every
intermediate state of the construction (the state after `i` words is
`countWords (words.take i)`, since the map is built by a left fold). -/
theorem countWords_pos (words : List String) (i : Nat) (w : String) (c : Int)
    (h : mapGet (countWords (words.take i)) w = some c) : 1 ≤ c := by
  obtain ⟨hget, -⟩ := countWords_inv (words.take i)
  have := hget w
  rw [h] at this
  by_cases h0 : (words.take i).count w = 0
  · simp [h0] at this
  · rw [if_neg h0] at this
    have hc : c = ((words.take i).count w : Int) := Option.some_injective _ this
    omega

/-- Witness for `countWords_pos` at a concrete input. -/
theorem countWords_pos_witness :
    mapGet (countWords (["a", "a"].take 2)) "a" = some 2 ∧ (1 : Int) ≤ 2 :=
  ⟨by decide, countWords_pos ["a", "a"] 2 "a" 2 (by decide)⟩

/-- C1 fails on the code: tokenizing the all-punctuation input `"!?"` yields
the one-element sequence containing the empty string (Go's `regexp.Split`
keeps empty segments), and `countWords` then counts the empty token. -/
theorem parseFile_empty_token :
    parseFile "!?" = [""] ∧ countWords (parseFile "!?") = [("", 1)] := by
  constructor <;> decide

/-- Helper: with a nonnegative limit, `firstN` succeeds and is `take`. -/
theorem firstN_eq_take (words : List String) (n : Int) (hn : 0 ≤ n) :
    firstN words n = some (words.take n.toNat) := by
  unfold firstN
  by_cases h : n < (words.length : Int)
  · rw [if_pos h, if_pos hn]
  · rw [if_neg h]
    have hlen : words.length ≤ n.toNat := by omega
    rw [List.take_of_length_le hlen]

/-- C6: for `n ≥ 0`, `firstN` returns normally and its result has length
`min (length words) n`; in particular it returns all of `words` unchanged
when `length words ≤ n`, and the empty list for `n = 0`. -/
theorem firstN_length (words : List String) (n : Int) (hn : 0 ≤ n) :
    firstN words n = some (words.take n.toNat) ∧
    (words.take n.toNat).length = min words.length n.toNat ∧
    (words.length ≤ n.toNat → words.take n.toNat = words) ∧
    (n = 0 → words.take n.toNat = []) := by
  refine ⟨firstN_eq_take words n hn, ?_, ?_, ?_⟩
  · rw [List.length_take, Nat.min_comm]
  · intro h; exact List.take_of_length_le h
  · intro h; subst h; rfl

/-- Witness for `firstN_length` at a concrete input. -/
theorem firstN_length_witness :
    firstN ["a", "b", "c"] 2 = some (["a", "b", "c"].take (Int.toNat 2)) ∧
    ((["a", "b", "c"].take (Int.toNat 2)).length =
      min (["a", "b", "c"].length) (Int.toNat 2)) :=
  ⟨(firstN_length ["a", "b", "c"] 2 (by decide)).1,
   (firstN_length ["a", "b", "c"] 2 (by decide)).2.1⟩

/-- C10: for every nonnegative `n` the slice in `firstN` is in bounds and the
call returns normally, while a negative `n` reaches the unguarded slice
`words[:n]` and panics (modelled by `none`), so `n ≥ 0` is necessary. -/
theorem firstN_safe :
    (∀ (words : List String) (n : Int), 0 ≤ n → (firstN words n).isSome = true) ∧
    firstN ["a"] (-1) = none := by
  constructor
  · intro words n hn
    rw [firstN_eq_take words n hn]
    rfl
  · decide

/-- Witness for `firstN_safe` at a concrete input. -/
theorem firstN_safe_witness :
    (firstN ["a"] 0).isSome = true ∧ firstN ["a"] (-1) = none :=
  ⟨firstN_safe.1 ["a"] 0 (by decide), firstN_safe.2⟩

theorem swpAdj_length (l : List WordCount) (j : Nat) :
    (swpAdj l j).length = l.length := by
  unfold swpAdj
  split
  · next h =>
      exact splice_length l j (j + 2) _ (by omega) (by omega) (by simp)
  · rfl

theorem seg_two (l : List WordCount) (j : Nat) (h : j + 1 < l.length) :
    seg l j (j + 2) = [l.getD j dWC, l.getD (j + 1) dWC] := by
  rw [seg_cons l j (j + 2) (by omega) (by omega),
    seg_cons l (j + 1) (j + 2) (by omega) (by omega)]
  have h0 : (seg l (j + 2) (j + 2)).length = 0 := by
    rw [seg_length l (j + 2) (j + 2) (le_refl _) (by omega)]
    omega
  rw [List.length_eq_zero.mp h0]

theorem swpAdj_perm (l : List WordCount) (j : Nat) : (swpAdj l j).Perm l := by
  unfold swpAdj
  split
  · next h =>
      apply splice_perm l j (j + 2) _ (by omega) (by omega)
      rw [seg_two l j h]
      exact List.Perm.swap _ _ _
  · exact List.Perm.refl l

theorem insLoop_length (j : Nat) :
    ∀ (l : List WordCount) (a : Nat), (insLoop l a j).length = l.length := by
  induction j with
  | zero => intro l a; rfl
  | succ j ih =>
      intro l a
      unfold insLoop
      split
      · rw [ih, swpAdj_length]
      · rfl

theorem insLoop_perm (j : Nat) :
    ∀ (l : List WordCount) (a : Nat), (insLoop l a j).Perm l := by
  induction j with
  | zero => intro l a; exact List.Perm.refl l
  | succ j ih =>
      intro l a
      unfold insLoop
      split
      · exact (ih _ a).trans (swpAdj_perm l j)
      · exact List.Perm.refl l

theorem insOuter_length (fuel : Nat) :
    ∀ (l : List WordCount) (a b i : Nat),
      (insOuter fuel l a b i).length = l.length := by
  induction fuel with
  | zero => intro l a b i; rfl
  | succ fuel ih =>
      intro l a b i
      unfold insOuter
      split
      · rw [ih, insLoop_length]
      · rfl

theorem insOuter_perm (fuel : Nat) :
    ∀ (l : List WordCount) (a b i : Nat), (insOuter fuel l a b i).Perm l := by
  induction fuel with
  | zero => intro l a b i; exact List.Perm.refl l
  | succ fuel ih =>
      intro l a b i
      unfold insOuter
      split
      · exact (ih _ a b (i + 1)).trans (insLoop_perm i l a)
      · exact List.Perm.refl l

theorem insertionSort_length (l : List WordCount) (a b : Nat) :
    (insertionSort l a b).length = l.length :=
  insOuter_length (b - a) l a b (a + 1)

theorem insertionSort_perm (l : List WordCount) (a b : Nat) :
    (insertionSort l a b).Perm l :=
  insOuter_perm (b - a) l a b (a + 1)

theorem bsearchB_ge (B : Nat → Bool) (fuel : Nat) :
    ∀ (lo hi : Nat), lo ≤ bsearchB B fuel lo hi := by
  induction fuel with
  | zero => intro lo hi; exact le_refl lo
  | succ fuel ih =>
      intro lo hi
      unfold bsearchB
      split
      · next h =>
          simp only []
          split
          · exact le_trans (by omega) (ih ((lo + hi) / 2 + 1) hi)
          · exact ih lo ((lo + hi) / 2)
      · exact le_refl lo

theorem bsearchB_le (B : Nat → Bool) (fuel : Nat) :
    ∀ (lo hi : Nat), lo ≤ hi → bsearchB B fuel lo hi ≤ hi := by
  induction fuel with
  | zero => intro lo hi h; exact h
  | succ fuel ih =>
      intro lo hi h
      unfold bsearchB
      split
      · next hlt =>
          simp only []
          split
          · exact ih ((lo + hi) / 2 + 1) hi (by omega)
          · exact le_trans (ih lo ((lo + hi) / 2) (by omega)) (by omega)
      · exact h

theorem case1move_length (l : List WordCount) (a i : Nat) :
    (case1move l a i).length = l.length := by
  unfold case1move
  split
  · next h =>
      apply splice_length l a i _ (by omega) (by omega)
      rw [List.length_append, seg_length l (a + 1) i (by omega) (by omega)]
      simp
      omega
  · rfl

theorem case1move_perm (l : List WordCount) (a i : Nat) :
    (case1move l a i).Perm l := by
  unfold case1move
  split
  · next h =>
      apply splice_perm l a i _ (by omega) (by omega)
      rw [seg_cons l a i (by omega) (by omega)]
      exact List.perm_append_singleton _ _
  · exact List.Perm.refl l

theorem case2move_length (l : List WordCount) (i b : Nat) :
    (case2move l i b).length = l.length := by
  unfold case2move
  split
  · next h =>
      apply splice_length l i b _ (by omega) (by omega)
      rw [List.length_append, seg_length l i (b - 1) (by omega) (by omega)]
      simp
      omega
  · rfl

theorem case2move_perm (l : List WordCount) (i b : Nat) :
    (case2move l i b).Perm l := by
  unfold case2move
  split
  · next h =>
      apply splice_perm l i b _ (by omega) (by omega)
      rw [seg_snoc l i b (by omega) (by omega)]
      exact List.perm_append_comm
  · exact List.Perm.refl l

theorem rotateSeg_length (l : List WordCount) (a m b : Nat) :
    (rotateSeg l a m b).length = l.length := by
  unfold rotateSeg
  split
  · next h =>
      apply splice_length l a b _ (by omega) (by omega)
      rw [List.length_append, seg_length l m b (by omega) (by omega),
        seg_length l a m (by omega) (by omega)]
      omega
  · rfl

theorem rotateSeg_perm (l : List WordCount) (a m b : Nat) :
    (rotateSeg l a m b).Perm l := by
  unfold rotateSeg
  split
  · next h =>
      apply splice_perm l a b _ (by omega) (by omega)
      rw [← seg_append l a m b (by omega) (by omega) (by omega)]
      exact List.perm_append_comm
  · exact List.Perm.refl l

theorem symMergeF_length (fuel : Nat) :
    ∀ (a m b : Nat) (l : List WordCount),
      (symMergeF fuel a m b l).length = l.length := by
  induction fuel with
  | zero => intro a m b l; rfl
  | succ fuel ih =>
      intro a m b l
      unfold symMergeF
      split
      · exact case1move_length _ _ _
      · split
        · exact case2move_length _ _ _
        · simp only []
          repeat' split
          all_goals simp [ih, rotateSeg_length]

theorem symMergeF_perm (fuel : Nat) :
    ∀ (a m b : Nat) (l : List WordCount), (symMergeF fuel a m b l).Perm l := by
  induction fuel with
  | zero => intro a m b l; exact List.Perm.refl l
  | succ fuel ih =>
      intro a m b l
      unfold symMergeF
      split
      · exact case1move_perm _ _ _
      · split
        · exact case2move_perm _ _ _
        · simp only []
          repeat' split
          all_goals
            repeat
              first
                | exact List.Perm.refl l
                | exact rotateSeg_perm _ _ _ _
                | refine (ih _ _ _ _).trans ?_
                | refine (rotateSeg_perm _ _ _ _).trans ?_

theorem insBlocks_length (fuel : Nat) :
    ∀ (a b n : Nat) (l : List WordCount),
      (insBlocks fuel a b n l).length = l.length := by
  induction fuel with
  | zero => intro a b n l; rfl
  | succ fuel ih =>
      intro a b n l
      unfold insBlocks
      split
      · rw [ih, insertionSort_length]
      · exact insertionSort_length l a n

theorem insBlocks_perm (fuel : Nat) :
    ∀ (a b n : Nat) (l : List WordCount), (insBlocks fuel a b n l).Perm l := by
  induction fuel with
  | zero => intro a b n l; exact List.Perm.refl l
  | succ fuel ih =>
      intro a b n l
      unfold insBlocks
      split
      · exact (ih _ _ _ _).trans (insertionSort_perm l a b)
      · exact insertionSort_perm l a n

theorem mergePass_length (fuel : Nat) :
    ∀ (a b bs n : Nat) (l : List WordCount),
      (mergePass fuel a b bs n l).length = l.length := by
  induction fuel with
  | zero => intro a b bs n l; rfl
  | succ fuel ih =>
      intro a b bs n l
      unfold mergePass
      split
      · rw [ih, symMergeF_length]
      · split
        · exact symMergeF_length _ _ _ _ l
        · rfl

theorem mergePass_perm (fuel : Nat) :
    ∀ (a b bs n : Nat) (l : List WordCount),
      (mergePass fuel a b bs n l).Perm l := by
  induction fuel with
  | zero => intro a b bs n l; exact List.Perm.refl l
  | succ fuel ih =>
      intro a b bs n l
      unfold mergePass
      split
      · exact (ih _ _ _ _ _).trans (symMergeF_perm _ _ _ _ l)
      · split
        · exact symMergeF_perm _ _ _ _ l
        · exact List.Perm.refl l

theorem mergeAll_length (fuel : Nat) :
    ∀ (bs n : Nat) (l : List WordCount),
      (mergeAll fuel bs n l).length = l.length := by
  induction fuel with
  | zero => intro bs n l; rfl
  | succ fuel ih =>
      intro bs n l
      unfold mergeAll
      split
      · rw [ih, mergePass_length]
      · rfl

theorem mergeAll_perm (fuel : Nat) :
    ∀ (bs n : Nat) (l : List WordCount), (mergeAll fuel bs n l).Perm l := by
  induction fuel with
  | zero => intro bs n l; exact List.Perm.refl l
  | succ fuel ih =>
      intro bs n l
      unfold mergeAll
      split
      · exact (ih _ _ _).trans (mergePass_perm _ _ _ _ _ l)
      · exact List.Perm.refl l

theorem stableSort_length (l : List WordCount) :
    (stableSort l).length = l.length := by
  unfold stableSort
  rw [mergeAll_length, insBlocks_length]

theorem stableSort_perm (l : List WordCount) : (stableSort l).Perm l := by
  unfold stableSort
  exact (mergeAll_perm _ _ _ _).trans (insBlocks_perm _ _ _ _ l)

theorem hasPre_nil (w : String) : hasPre "" w = true := by
  unfold hasPre
  have h : "".toList = [] := by decide
  rw [h]
  cases w.toList <;> rfl

theorem mem_matchWC (pfx : String) (freqs : List (String × Int))
    (wc : WordCount) :
    wc ∈ matchWC pfx freqs ↔
      ∃ kv ∈ freqs, hasPre pfx kv.1 = true ∧ wc = ⟨kv.1, kv.2⟩ := by
  unfold matchWC
  rw [List.mem_map]
  constructor
  · rintro ⟨kv, hkv, rfl⟩
    rw [List.mem_filter] at hkv
    exact ⟨kv, hkv.1, hkv.2, rfl⟩
  · rintro ⟨kv, hkv, hpre, rfl⟩
    exact ⟨kv, List.mem_filter.mpr ⟨hkv, hpre⟩, rfl⟩

/-- C5: every completion result starts with the prefix, the empty prefix
matches every token of the map, and a prefix matching nothing yields the
empty sequence (no error). -/
theorem complete_sound (pfx : String) (freqs : List (String × Int)) :
    (∀ w ∈ complete pfx freqs, hasPre pfx w = true) ∧
    (pfx = "" → ∀ kv ∈ freqs, kv.1 ∈ complete pfx freqs) ∧
    ((∀ kv ∈ freqs, hasPre pfx kv.1 = false) → complete pfx freqs = []) := by
  have hperm := stableSort_perm (matchWC pfx freqs)
  refine ⟨?_, ?_, ?_⟩
  · intro w hw
    unfold complete completeWC at hw
    rw [List.mem_map] at hw
    obtain ⟨wc, hwc, rfl⟩ := hw
    rw [hperm.mem_iff, mem_matchWC] at hwc
    obtain ⟨kv, _, hpre, rfl⟩ := hwc
    exact hpre
  · intro hp kv hkv
    subst hp
    unfold complete completeWC
    rw [List.mem_map]
    refine ⟨⟨kv.1, kv.2⟩, ?_, rfl⟩
    rw [hperm.mem_iff, mem_matchWC]
    exact ⟨kv, hkv, hasPre_nil kv.1, rfl⟩
  · intro hnone
    unfold complete completeWC
    have hm : matchWC pfx freqs = [] := by
      unfold matchWC
      rw [List.filter_eq_nil_iff.mpr (fun kv hkv => by rw [hnone kv hkv]; simp)]
      rfl
    rw [hm]
    rw [(stableSort_perm []).eq_nil]
    rfl

/-- Witness for `complete_sound` at concrete inputs. -/
theorem complete_sound_witness :
    (∀ w ∈ complete "" [("ab", (2 : Int))], hasPre "" w = true) ∧
    "ab" ∈ complete "" [("ab", (2 : Int))] :=
  ⟨(complete_sound "" [("ab", (2 : Int))]).1,
   (complete_sound "" [("ab", (2 : Int))]).2.1 rfl ("ab", 2) (by decide)⟩

/-- Counterexample to C2 as stated: the two lists are permutations of each
other, hence encode the same frequency map, and model two enumeration
orders of that map that Go's randomized `range` can produce; `complete`
returns different sequences for them, so the output is not a function of
the map and prefix alone. -/
theorem complete_map_order_dependent :
    List.Perm [("a", (1 : Int)), ("b", 1)] [("b", (1 : Int)), ("a", 1)] ∧
    complete "" [("a", (1 : Int)), ("b", 1)] ≠
      complete "" [("b", (1 : Int)), ("a", 1)] :=
  ⟨List.Perm.swap _ _ _, by decide⟩

/-- C2 as amended: `complete` is a deterministic function of the entry
sequence it scans (identical scan orders give identical outputs), and any
two scan orders of the same unmodified map give outputs that are
permutations of each other. -/
theorem complete_perm_of_perm (pfx : String) (o₁ o₂ : List (String × Int))
    (h : o₁.Perm o₂) : (complete pfx o₁).Perm (complete pfx o₂) := by
  unfold complete completeWC
  apply List.Perm.map
  refine (stableSort_perm _).trans (.trans ?_ (stableSort_perm _).symm)
  unfold matchWC
  exact (h.filter _).map _

/-- Witness for `complete_perm_of_perm` at concrete inputs. -/
theorem complete_perm_of_perm_witness :
    (complete "" [("a", (1 : Int)), ("b", 1)]).Perm
      (complete "" [("b", (1 : Int)), ("a", 1)]) :=
  complete_perm_of_perm "" _ _ (List.Perm.swap _ _ _)

/-- C3 fails on the code: with entries scanned in the order
`("a",1), ("b",1)` and the empty prefix, `complete` returns `["b", "a"]`,
not the scan order `["a", "b"]`.  The comparator `!(count i < count j)`
is true on equal counts, so `sort.SliceStable`'s insertion sort swaps
equal-count entries and reverses ties instead of preserving them. -/
theorem complete_reverses_ties :
    complete "" [("a", (1 : Int)), ("b", 1)] = ["b", "a"] := by decide

theorem respond_valid_iff (r : Request) :
    (r.method == "GET" && r.path == "/autocomplete" && r.term != "") = true ↔
      (r.method = "GET" ∧ r.path = "/autocomplete" ∧ r.term ≠ "") := by
  simp [Bool.and_eq_true, and_assoc]

/-- C9: a request that is not a GET for `/autocomplete` with a non-empty
`term` gets a 400 client error with the `Unsupported request` message; a
valid request gets 200 with the completions of `term` truncated to 25, in
ranked order. -/
theorem respond_contract (countMap : List (String × Int)) (r : Request) :
    (¬(r.method = "GET" ∧ r.path = "/autocomplete" ∧ r.term ≠ "") →
      respond countMap r = some ⟨400, Body.message "Unsupported request"⟩) ∧
    (r.method = "GET" → r.path = "/autocomplete" → r.term ≠ "" →
      respond countMap r =
        some ⟨200, Body.matches ((complete r.term countMap).take 25)⟩) := by
  constructor
  · intro h
    unfold respond
    simp only []
    rw [if_neg (fun hb => h ((respond_valid_iff r).mp hb))]
  · intro h1 h2 h3
    unfold respond
    simp only []
    rw [if_pos ((respond_valid_iff r).mpr ⟨h1, h2, h3⟩)]
    rw [firstN_eq_take _ 25 (by decide)]
    rfl

/-- Witness for `respond_contract` at concrete requests. -/
theorem respond_contract_witness :
    respond [("ab", (2 : Int))] ⟨"GET", "/autocomplete", "a"⟩ =
      some ⟨200, Body.matches ((complete "a" [("ab", (2 : Int))]).take 25)⟩ ∧
    respond [("ab", (2 : Int))] ⟨"POST", "/autocomplete", "a"⟩ =
      some ⟨400, Body.message "Unsupported request"⟩ :=
  ⟨(respond_contract [("ab", (2 : Int))] ⟨"GET", "/autocomplete", "a"⟩).2
      rfl rfl (by decide),
   (respond_contract [("ab", (2 : Int))] ⟨"POST", "/autocomplete", "a"⟩).1
      (fun h => absurd h.1 (by decide))⟩

theorem lessIdx_true_iff (l : List WordCount) (i j : Nat) :
    lessIdx l i j = true ↔ cnt l j ≤ cnt l i := by
  unfold lessIdx wcLess cnt
  split
  · next h =>
      constructor
      · intro hh
        exact absurd hh (by simp)
      · intro hh
        exfalso
        omega
  · next h =>
      constructor
      · intro _
        omega
      · intro _
        rfl

theorem lessIdx_false_iff (l : List WordCount) (i j : Nat) :
    lessIdx l i j = false ↔ cnt l i < cnt l j := by
  rw [← Bool.not_eq_true, lessIdx_true_iff]
  omega

theorem sortedSeg_trivial (l : List WordCount) (a b : Nat) (h : b ≤ a + 1) :
    SortedSeg l a b := by
  intro j hj i hij hai
  have : i = j := by omega
  subst this
  exact le_refl _

theorem sortedSeg_mono (l : List WordCount) (a b a' b' : Nat)
    (h : SortedSeg l a b) (ha : a ≤ a') (hb : b' ≤ b) : SortedSeg l a' b' :=
  fun j hj i hij hai => h j (by omega) i hij (by omega)

theorem sortedSeg_glue (l : List WordCount) (a m b : Nat)
    (h1 : SortedSeg l a m) (h2 : SortedSeg l m b)
    (hx : ∀ i j, a ≤ i → i < m → m ≤ j → j < b → cnt l j ≤ cnt l i) :
    SortedSeg l a b := by
  intro j hj i hij hai
  by_cases him : i < m
  · by_cases hjm : j < m
    · exact h1 j hjm i hij hai
    · exact hx i j hai him (by omega) hj
  · exact h2 j hj i hij (by omega)

theorem sortedSeg_congr (l l' : List WordCount) (a b : Nat)
    (h : ∀ k, a ≤ k → k < b → cnt l' k = cnt l k) (hs : SortedSeg l a b) :
    SortedSeg l' a b := by
  intro j hj i hij hai
  rw [h j (by omega) hj, h i hai (by omega)]
  exact hs j hj i hij hai

theorem mem_seg (l : List WordCount) (a b : Nat) (x : WordCount)
    (hb : b ≤ l.length) :
    x ∈ seg l a b ↔ ∃ k, a ≤ k ∧ k < b ∧ l.getD k dWC = x := by
  constructor
  · intro hx
    obtain ⟨k, hk, hget⟩ := List.getElem_of_mem hx
    have hab : a ≤ b := by
      by_contra hab
      have : (seg l a b).length = 0 := by
        unfold seg
        simp [List.length_take]
        omega
      omega
    have hlen : (seg l a b).length = b - a := seg_length l a b hab hb
    refine ⟨a + k, by omega, by omega, ?_⟩
    rw [← seg_getD l a b k (by omega) hb]
    rw [List.getD_eq_getElem?_getD, List.getElem?_eq_getElem hk]
    simpa using hget
  · rintro ⟨k, hak, hkb, rfl⟩
    have hlen : (seg l a b).length = b - a := seg_length l a b (by omega) hb
    have : (seg l a b).getD (k - a) dWC = l.getD k dWC := by
      rw [seg_getD l a b (k - a) (by omega) hb]
      congr 1
      omega
    rw [← this]
    rw [List.getD_eq_getElem?_getD, List.getElem?_eq_getElem (by omega)]
    exact List.getElem_mem _

theorem seg_eq_of_getD_eq (l l' : List WordCount) (a b : Nat)
    (hlen : l'.length = l.length) (hb : b ≤ l.length)
    (h : ∀ k, a ≤ k → k < b → l'.getD k dWC = l.getD k dWC) :
    seg l' a b = seg l a b := by
  apply List.ext_getElem?
  intro k
  unfold seg
  rw [List.getElem?_drop, List.getElem?_drop, List.getElem?_take,
    List.getElem?_take]
  by_cases hk : a + k < b
  · rw [if_pos hk, if_pos hk]
    have h1 : a + k < l.length := by omega
    rw [List.getElem?_eq_getElem (by omega), List.getElem?_eq_getElem h1]
    have := h (a + k) (by omega) hk
    rw [List.getD_eq_getElem?_getD, List.getD_eq_getElem?_getD,
      List.getElem?_eq_getElem (by omega), List.getElem?_eq_getElem h1]
      at this
    simpa using this
  · rw [if_neg hk, if_neg hk]

theorem count_eq_three_parts (l : List WordCount) (a b : Nat) (hab : a ≤ b)
    (hb : b ≤ l.length) (x : WordCount) :
    List.count x l =
      List.count x (l.take a) + List.count x (seg l a b) +
        List.count x (l.drop b) := by
  conv_lhs => rw [← splice_seg_eq l a b hab hb]
  unfold splice
  rw [List.count_append, List.count_append]

theorem seg_perm_of_perm_frame (l l' : List WordCount) (a b : Nat)
    (hlen : l'.length = l.length) (hperm : l'.Perm l)
    (hout : ∀ k, k < a ∨ b ≤ k → l'.getD k dWC = l.getD k dWC)
    (hab : a ≤ b) (hb : b ≤ l.length) :
    (seg l' a b).Perm (seg l a b) := by
  have htake : l'.take a = l.take a := by
    apply List.ext_getElem?
    intro k
    rw [List.getElem?_take, List.getElem?_take]
    by_cases hk : k < a
    · rw [if_pos hk, if_pos hk]
      have h1 : k < l.length := by omega
      have := hout k (Or.inl hk)
      rw [List.getD_eq_getElem?_getD, List.getD_eq_getElem?_getD,
        List.getElem?_eq_getElem (by omega), List.getElem?_eq_getElem h1]
        at this
      rw [List.getElem?_eq_getElem (by omega), List.getElem?_eq_getElem h1]
      simpa using this
    · rw [if_neg hk, if_neg hk]
  have hdrop : l'.drop b = l.drop b := by
    apply List.ext_getElem?
    intro k
    rw [List.getElem?_drop, List.getElem?_drop]
    by_cases hk : b + k < l.length
    · have := hout (b + k) (Or.inr (by omega))
      rw [List.getD_eq_getElem?_getD, List.getD_eq_getElem?_getD,
        List.getElem?_eq_getElem (by omega), List.getElem?_eq_getElem hk]
        at this
      rw [List.getElem?_eq_getElem (by omega), List.getElem?_eq_getElem hk]
      simpa using this
    · rw [List.getElem?_eq_none (by omega), List.getElem?_eq_none (by omega)]
  rw [List.perm_iff_count]
  intro x
  have h1 := count_eq_three_parts l a b hab hb x
  have h2 := count_eq_three_parts l' a b hab (by omega) x
  rw [htake, hdrop] at h2
  have h3 : List.count x l' = List.count x l := List.perm_iff_count.mp hperm x
  omega

theorem swpAdj_getD_at_j (l : List WordCount) (j : Nat) (h : j + 1 < l.length) :
    (swpAdj l j).getD j dWC = l.getD (j + 1) dWC := by
  unfold swpAdj
  rw [if_pos h]
  rw [splice_getD_mid l j (j + 2) _ j (le_refl j) (by simp) (by omega)]
  simp

theorem swpAdj_getD_at_j1 (l : List WordCount) (j : Nat)
    (h : j + 1 < l.length) :
    (swpAdj l j).getD (j + 1) dWC = l.getD j dWC := by
  unfold swpAdj
  rw [if_pos h]
  rw [splice_getD_mid l j (j + 2) _ (j + 1) (by omega) (by simp) (by omega)]
  simp

theorem swpAdj_getD_out (l : List WordCount) (j k : Nat) (hk : k ≠ j)
    (hk1 : k ≠ j + 1) : (swpAdj l j).getD k dWC = l.getD k dWC := by
  unfold swpAdj
  split
  · next h =>
      by_cases hlt : k < j
      · exact splice_getD_left l j (j + 2) _ k hlt (by omega)
      · exact splice_getD_right l j (j + 2) _ k (by simp) (by omega) (by omega)
          (by omega)
  · rfl

theorem insLoop_sorted : ∀ (j : Nat) (l : List WordCount) (a i : Nat),
    a ≤ j → j ≤ i → i < l.length →
    SortedSeg l a j →
    SortedSeg l (j + 1) (i + 1) →
    (∀ k, j < k → k ≤ i → cnt l k ≤ cnt l j) →
    (a < j → ∀ k, j < k → k ≤ i → cnt l k ≤ cnt l (j - 1)) →
    SortedSeg (insLoop l a j) a (i + 1) := by
  intro j
  induction j with
  | zero =>
      intro l a i haj hji hi h4 h5 h6 h7
      have ha : a = 0 := by omega
      subst ha
      show SortedSeg l 0 (i + 1)
      refine sortedSeg_glue l 0 1 (i + 1) (sortedSeg_trivial l 0 1 (by omega)) ?_ ?_
      · -- SortedSeg l 1 (i+1)
        exact h5
      · intro p q hp hpm hmq hq
        have hp0 : p = 0 := by omega
        subst hp0
        exact h6 q (by omega) (by omega)
  | succ j ih =>
      intro l a i haj hji hi h4 h5 h6 h7
      unfold insLoop
      split
      · next hcond =>
          rw [Bool.and_eq_true] at hcond
          obtain ⟨ha, hless⟩ := hcond
          have ha' : a < j + 1 := by simpa using ha
          rw [lessIdx_true_iff] at hless
          have hj1 : j + 1 < l.length := by omega
          have hlen : (swpAdj l j).length = l.length := swpAdj_length l j
          -- facts about the swapped list
          have e_j : cnt (swpAdj l j) j = cnt l (j + 1) := by
            unfold cnt
            rw [swpAdj_getD_at_j l j hj1]
          have e_j1 : cnt (swpAdj l j) (j + 1) = cnt l j := by
            unfold cnt
            rw [swpAdj_getD_at_j1 l j hj1]
          have e_out : ∀ k, k ≠ j → k ≠ j + 1 →
              cnt (swpAdj l j) k = cnt l k := by
            intro k hk hk1
            unfold cnt
            rw [swpAdj_getD_out l j k hk hk1]
          apply ih (swpAdj l j) a i (by omega) (by omega) (by omega)
          · -- SortedSeg (swpAdj l j) a j
            apply sortedSeg_congr l _ a j
              (fun k hk1 hk2 => e_out k (by omega) (by omega))
            exact sortedSeg_mono l a (j + 1) a j h4 (le_refl a) (by omega)
          · -- SortedSeg (swpAdj l j) (j+1) (i+1)
            intro q hq p hpq hp
            by_cases hpj : p = j + 1
            · subst hpj
              rw [e_j1]
              by_cases hqj : q = j + 1
              · subst hqj
                rw [e_j1]
              · rw [e_out q (by omega) hqj]
                exact h7 ha' q (by omega) (by omega)
            · rw [e_out p (by omega) hpj, e_out q (by omega) (by omega)]
              exact h5 q hq p hpq (by omega)
          · -- new inv3 at j
            intro k hk1 hk2
            rw [e_j]
            by_cases hkj : k = j + 1
            · subst hkj
              rw [e_j1]
              exact hless
            · rw [e_out k (by omega) hkj]
              exact h6 k (by omega) hk2
          · -- new inv4 at j
            intro haj' k hk1 hk2
            have e_jm : cnt (swpAdj l j) (j - 1) = cnt l (j - 1) := by
              apply e_out <;> omega
            rw [e_jm]
            have hstep : cnt l j ≤ cnt l (j - 1) :=
              h4 j (by omega) (j - 1) (by omega) (by omega)
            by_cases hkj : k = j + 1
            · subst hkj
              rw [e_j1]
              exact hstep
            · rw [e_out k (by omega) hkj]
              exact le_trans (h7 ha' k (by omega) hk2) hstep
      · next hcond =>
          rw [Bool.and_eq_true] at hcond
          push_neg at hcond
          have hinner : SortedSeg l (j + 1) (i + 1) := by
            refine sortedSeg_glue l (j + 1) (j + 2) (i + 1)
              (sortedSeg_trivial l (j + 1) (j + 2) (by omega)) h5 ?_
            intro p q hp hpm hmq hq
            have hp' : p = j + 1 := by omega
            subst hp'
            exact h6 q (by omega) (by omega)
          by_cases ha : a < j + 1
          · have hless : lessIdx l (j + 1) j = false := by
              have hne := hcond (by simpa using ha)
              simp only [ne_eq, Bool.not_eq_true] at hne
              exact hne
            rw [lessIdx_false_iff] at hless
            refine sortedSeg_glue l a (j + 1) (i + 1) h4 hinner ?_
            intro p q hp hpm hmq hq
            have hqj : cnt l q ≤ cnt l (j + 1) := by
              by_cases hq' : q = j + 1
              · subst hq'; exact le_refl _
              · exact h6 q (by omega) (by omega)
            have hjp : cnt l j ≤ cnt l p := h4 j (by omega) p (by omega) hp
            omega
          · have ha' : a = j + 1 := by omega
            subst ha'
            exact hinner

theorem insLoop_frame : ∀ (j : Nat) (l : List WordCount) (a k : Nat),
    k < a ∨ j < k → (insLoop l a j).getD k dWC = l.getD k dWC := by
  intro j
  induction j with
  | zero => intro l a k hk; rfl
  | succ j ih =>
      intro l a k hk
      unfold insLoop
      split
      · next hcond =>
          rw [Bool.and_eq_true] at hcond
          have ha : a < j + 1 := by simpa using hcond.1
          rw [ih _ a k (by omega), swpAdj_getD_out l j k (by omega) (by omega)]
      · rfl

theorem insOuter_sorted : ∀ (fuel : Nat) (l : List WordCount) (a b i : Nat),
    b ≤ l.length → a < i → b ≤ i + fuel → SortedSeg l a i →
    SortedSeg (insOuter fuel l a b i) a b := by
  intro fuel
  induction fuel with
  | zero =>
      intro l a b i hb hai hfuel hs
      exact sortedSeg_mono l a i a b hs (le_refl a) (by omega)
  | succ fuel ih =>
      intro l a b i hb hai hfuel hs
      unfold insOuter
      split
      · next hib =>
          apply ih _ a b (i + 1)
          · rw [insLoop_length]; exact hb
          · omega
          · omega
          · apply insLoop_sorted i l a i (by omega) (le_refl i) (by omega) hs
              (sortedSeg_trivial l (i + 1) (i + 1) (by omega))
              (fun k h1 h2 => by omega)
              (fun _ k h1 h2 => by omega)
      · next hib =>
          exact sortedSeg_mono l a i a b hs (le_refl a) (by omega)

theorem insertionSort_sorted (l : List WordCount) (a b : Nat)
    (hb : b ≤ l.length) : SortedSeg (insertionSort l a b) a b := by
  unfold insertionSort
  exact insOuter_sorted (b - a) l a b (a + 1) hb (by omega) (by omega)
    (sortedSeg_trivial l a (a + 1) (by omega))

theorem insOuter_frame : ∀ (fuel : Nat) (l : List WordCount) (a b i k : Nat),
    k < a ∨ b ≤ k → i ≤ b →
    (insOuter fuel l a b i).getD k dWC = l.getD k dWC := by
  intro fuel
  induction fuel with
  | zero => intro l a b i k hk hib; rfl
  | succ fuel ih =>
      intro l a b i k hk hib
      unfold insOuter
      split
      · next hib' =>
          rw [ih _ a b (i + 1) k hk (by omega),
            insLoop_frame i l a k (by omega)]
      · rfl

theorem insertionSort_frame (l : List WordCount) (a b k : Nat)
    (hk : k < a ∨ b ≤ k) :
    (insertionSort l a b).getD k dWC = l.getD k dWC := by
  unfold insertionSort
  by_cases hab : a + 1 ≤ b
  · exact insOuter_frame (b - a) l a b (a + 1) k hk hab
  · have : b - a = 0 := by omega
    rw [this]
    rfl

theorem bsearchB_spec (B : Nat → Bool) : ∀ (fuel lo hi : Nat),
    hi - lo ≤ fuel → lo ≤ hi →
    (∀ k k', lo ≤ k → k ≤ k' → k' < hi → B k' = true → B k = true) →
    (∀ k, lo ≤ k → k < bsearchB B fuel lo hi → B k = true) ∧
    (∀ k, bsearchB B fuel lo hi ≤ k → k < hi → B k = false) := by
  intro fuel
  induction fuel with
  | zero =>
      intro lo hi hfuel hlh hpre
      have : hi = lo := by omega
      subst this
      exact ⟨fun k h1 h2 => by simp [bsearchB] at h2; omega,
        fun k h1 h2 => by simp [bsearchB] at h1; omega⟩
  | succ fuel ih =>
      intro lo hi hfuel hlh hpre
      unfold bsearchB
      split
      · next hlt =>
          simp only []
          split
          · next hBh =>
              have hk := ih ((lo + hi) / 2 + 1) hi (by omega) (by omega)
                (fun k k' h1 h2 h3 hB => hpre k k' (by omega) h2 h3 hB)
              refine ⟨?_, hk.2⟩
              intro k h1 h2
              by_cases hkh : k ≤ (lo + hi) / 2
              · exact hpre k ((lo + hi) / 2) h1 hkh (by omega) hBh
              · exact hk.1 k (by omega) h2
          · next hBh =>
              have hBh' : B ((lo + hi) / 2) = false := by
                simp only [Bool.not_eq_true] at hBh
                exact hBh
              have hk := ih lo ((lo + hi) / 2) (by omega) (by omega)
                (fun k k' h1 h2 h3 hB => hpre k k' h1 h2 (by omega) hB)
              refine ⟨hk.1, ?_⟩
              intro k h1 h2
              by_cases hkh : k < (lo + hi) / 2
              · exact hk.2 k h1 hkh
              · rcases Bool.eq_false_or_eq_true (B k) with h | h
                · exfalso
                  have := hpre ((lo + hi) / 2) k (by omega) (by omega) h2 h
                  rw [this] at hBh'
                  exact absurd hBh' (by simp)
                · exact h
      · next hlt =>
          exact ⟨fun k h1 h2 => by omega, fun k h1 h2 => by omega⟩

theorem getD_append_lt (xs ys : List WordCount) (n : Nat)
    (h : n < xs.length) : (xs ++ ys).getD n dWC = xs.getD n dWC := by
  rw [List.getD_eq_getElem?_getD, List.getD_eq_getElem?_getD,
    List.getElem?_append, if_pos h]

theorem getD_append_ge (xs ys : List WordCount) (n : Nat)
    (h : xs.length ≤ n) :
    (xs ++ ys).getD n dWC = ys.getD (n - xs.length) dWC := by
  rw [List.getD_eq_getElem?_getD, List.getD_eq_getElem?_getD,
    List.getElem?_append, if_neg (by omega)]

theorem case1move_frame (l : List WordCount) (a i k : Nat)
    (hk : k < a ∨ i ≤ k) : (case1move l a i).getD k dWC = l.getD k dWC := by
  unfold case1move
  split
  · next h =>
      rcases hk with hk | hk
      · exact splice_getD_left l a i _ k hk (by omega)
      · refine splice_getD_right l a i _ k ?_ (by omega) (by omega) hk
        rw [List.length_append, seg_length l (a + 1) i (by omega) (by omega)]
        simp
        omega
  · rfl

theorem case2move_frame (l : List WordCount) (i b k : Nat)
    (hk : k < i ∨ b ≤ k) : (case2move l i b).getD k dWC = l.getD k dWC := by
  unfold case2move
  split
  · next h =>
      rcases hk with hk | hk
      · exact splice_getD_left l i b _ k hk (by omega)
      · refine splice_getD_right l i b _ k ?_ (by omega) (by omega) hk
        rw [List.length_append, seg_length l i (b - 1) (by omega) (by omega)]
        simp
        omega
  · rfl

theorem rotateSeg_getD_out (l : List WordCount) (a m b k : Nat)
    (hk : k < a ∨ b ≤ k) : (rotateSeg l a m b).getD k dWC = l.getD k dWC := by
  unfold rotateSeg
  split
  · next h =>
      rcases hk with hk | hk
      · exact splice_getD_left l a b _ k hk (by omega)
      · refine splice_getD_right l a b _ k ?_ (by omega) (by omega) hk
        rw [List.length_append, seg_length l m b (by omega) (by omega),
          seg_length l a m (by omega) (by omega)]
        omega
  · rfl

/-- Sortedness of the first special case of `symMerge`: `data[a]` inserted
by binary search into the sorted run `data[a+1:b]`. -/
theorem case1_sorted_aux (l : List WordCount) (a b i : Nat)
    (hge : a + 1 ≤ i) (hle : i ≤ b) (hb : b ≤ l.length)
    (hv : SortedSeg l (a + 1) b)
    (F1 : ∀ k, a + 1 ≤ k → k < i → cnt l a ≤ cnt l k)
    (F2 : ∀ k, i ≤ k → k < b → cnt l k < cnt l a) :
    SortedSeg (case1move l a i) a b := by
  unfold case1move
  rw [if_pos ⟨by omega, by omega⟩]
  have hseglen : (seg l (a + 1) i).length = i - (a + 1) :=
    seg_length l (a + 1) i (by omega) (by omega)
  have hxlen : (seg l (a + 1) i ++ [l.getD a dWC]).length = i - a := by
    rw [List.length_append, hseglen]
    simp
    omega
  have r_out : ∀ k, i ≤ k →
      (splice l a i (seg l (a + 1) i ++ [l.getD a dWC])).getD k dWC =
        l.getD k dWC := by
    intro k hk
    exact splice_getD_right l a i _ k (by rw [hxlen]) (by omega) (by omega) hk
  have r_mid1 : ∀ k, a ≤ k → k < i - 1 →
      (splice l a i (seg l (a + 1) i ++ [l.getD a dWC])).getD k dWC =
        l.getD (k + 1) dWC := by
    intro k h1 h2
    rw [splice_getD_mid l a i _ k h1 (by omega) (by omega),
      getD_append_lt _ _ _ (by omega),
      seg_getD l (a + 1) i (k - a) (by omega) (by omega)]
    congr 1
    omega
  have r_mid2 :
      (splice l a i (seg l (a + 1) i ++ [l.getD a dWC])).getD (i - 1) dWC =
        l.getD a dWC := by
    rw [splice_getD_mid l a i _ (i - 1) (by omega) (by omega) (by omega),
      getD_append_ge _ _ _ (by omega)]
    have h0 : i - 1 - a - (seg l (a + 1) i).length = 0 := by
      rw [hseglen]; omega
    rw [h0]
    rfl
  intro q hq p hpq hp
  unfold cnt
  by_cases hq1 : q < i - 1
  · rw [r_mid1 q (by omega) hq1, r_mid1 p (by omega) (by omega)]
    exact hv (q + 1) (by omega) (p + 1) (by omega) (by omega)
  · by_cases hq2 : q = i - 1
    · subst hq2
      rw [r_mid2]
      by_cases hp1 : p = i - 1
      · subst hp1
        rw [r_mid2]
      · rw [r_mid1 p hp (by omega)]
        exact F1 (p + 1) (by omega) (by omega)
    · have hqi : i ≤ q := by omega
      rw [r_out q hqi]
      have hqa : cnt l q < cnt l a := F2 q hqi hq
      by_cases hpi : i ≤ p
      · rw [r_out p hpi]
        exact hv q hq p hpq (by omega)
      · by_cases hp1 : p = i - 1
        · subst hp1
          rw [r_mid2]
          unfold cnt at hqa
          omega
        · rw [r_mid1 p hp (by omega)]
          have := F1 (p + 1) (by omega) (by omega)
          unfold cnt at hqa this
          omega

/-- The first special case of `symMerge`, with the search result plugged
in. -/
theorem symCase1_sorted (l : List WordCount) (a m b : Nat) (hma : m = a + 1)
    (hmb : m ≤ b) (hb : b ≤ l.length) (hv : SortedSeg l m b) :
    SortedSeg
      (case1move l a (bsearchB (fun h => lessIdx l h a) (b - m) m b)) a b := by
  subst hma
  have hpre : ∀ k k', a + 1 ≤ k → k ≤ k' → k' < b →
      lessIdx l k' a = true → lessIdx l k a = true := by
    intro k k' h1 h2 h3 hB
    rw [lessIdx_true_iff] at hB ⊢
    exact le_trans hB (hv k' h3 k h2 h1)
  have hspec := bsearchB_spec (fun h => lessIdx l h a) (b - (a + 1)) (a + 1) b
    (le_refl _) hmb hpre
  apply case1_sorted_aux l a b _ (bsearchB_ge _ _ _ _)
    (bsearchB_le _ _ _ _ hmb) hb hv
  · intro k h1 h2
    have := hspec.1 k h1 h2
    rw [lessIdx_true_iff] at this
    exact this
  · intro k h1 h2
    have := hspec.2 k h1 h2
    rw [lessIdx_false_iff] at this
    exact this

/-- Sortedness of the second special case of `symMerge`: `data[b-1]`
inserted by binary search into the sorted run `data[a:b-1]`. -/
theorem case2_sorted_aux (l : List WordCount) (a m i : Nat)
    (hge : a ≤ i) (hle : i ≤ m) (hb : m + 1 ≤ l.length)
    (hu : SortedSeg l a m)
    (F1 : ∀ k, a ≤ k → k < i → cnt l m < cnt l k)
    (F2 : ∀ k, i ≤ k → k < m → cnt l k ≤ cnt l m) :
    SortedSeg (case2move l i (m + 1)) a (m + 1) := by
  unfold case2move
  rw [if_pos ⟨by omega, by omega⟩]
  have hseglen : (seg l i (m + 1 - 1)).length = m - i := by
    rw [seg_length l i (m + 1 - 1) (by omega) (by omega)]
    omega
  have hxlen : (([l.getD (m + 1 - 1) dWC] ++ seg l i (m + 1 - 1)).length)
      = m + 1 - i := by
    rw [List.length_append, hseglen]
    simp
    omega
  have r_out : ∀ k, k < i →
      (splice l i (m + 1) ([l.getD (m + 1 - 1) dWC] ++ seg l i (m + 1 - 1))
        ).getD k dWC = l.getD k dWC := by
    intro k hk
    exact splice_getD_left l i (m + 1) _ k hk (by omega)
  have r_at_i :
      (splice l i (m + 1) ([l.getD (m + 1 - 1) dWC] ++ seg l i (m + 1 - 1))
        ).getD i dWC = l.getD m dWC := by
    rw [splice_getD_mid l i (m + 1) _ i (le_refl i) (by rw [hxlen]; omega)
      (by omega), getD_append_lt _ _ _ (by simp)]
    simp
  have r_mid : ∀ k, i < k → k < m + 1 →
      (splice l i (m + 1) ([l.getD (m + 1 - 1) dWC] ++ seg l i (m + 1 - 1))
        ).getD k dWC = l.getD (k - 1) dWC := by
    intro k h1 h2
    rw [splice_getD_mid l i (m + 1) _ k (by omega) (by rw [hxlen]; omega)
      (by omega), getD_append_ge _ _ _ (by simp; omega)]
    simp only [List.length_singleton]
    rw [seg_getD l i (m + 1 - 1) (k - i - 1) (by omega) (by omega)]
    congr 1
    omega
  intro q hq p hpq hp
  unfold cnt
  by_cases hqi : q < i
  · rw [r_out q hqi, r_out p (by omega)]
    exact hu q (by omega) p hpq hp
  · by_cases hqeq : q = i
    · subst hqeq
      rw [r_at_i]
      by_cases hpe : p = q
      · subst hpe
        rw [r_at_i]
      · rw [r_out p (by omega)]
        have := F1 p hp (by omega)
        unfold cnt at this
        omega
    · have hqgt : i < q := by omega
      rw [r_mid q hqgt hq]
      by_cases hpi : p < i
      · rw [r_out p hpi]
        exact hu (q - 1) (by omega) p (by omega) hp
      · by_cases hpeq : p = i
        · subst hpeq
          rw [r_at_i]
          have := F2 (q - 1) (by omega) (by omega)
          unfold cnt at this
          omega
        · rw [r_mid p (by omega) (by omega)]
          exact hu (q - 1) (by omega) (p - 1) (by omega) (by omega)

/-- The second special case of `symMerge`, with the search result plugged
in. -/
theorem symCase2_sorted (l : List WordCount) (a m b : Nat) (hbm : b = m + 1)
    (hab : a ≤ m) (hb : b ≤ l.length) (hu : SortedSeg l a m) :
    SortedSeg
      (case2move l (bsearchB (fun h => !lessIdx l m h) (m - a) a m) b) a b := by
  subst hbm
  have hpre : ∀ k k', a ≤ k → k ≤ k' → k' < m →
      (!lessIdx l m k') = true → (!lessIdx l m k) = true := by
    intro k k' h1 h2 h3 hB
    simp only [Bool.not_eq_true'] at hB ⊢
    rw [lessIdx_false_iff] at hB ⊢
    exact lt_of_lt_of_le hB (hu k' h3 k h2 h1)
  have hspec := bsearchB_spec (fun h => !lessIdx l m h) (m - a) a m
    (le_refl _) hab hpre
  apply case2_sorted_aux l a m _ (bsearchB_ge _ _ _ _)
    (bsearchB_le _ _ _ _ hab) hb hu
  · intro k h1 h2
    have := hspec.1 k h1 h2
    simp only [Bool.not_eq_true'] at this
    rw [lessIdx_false_iff] at this
    exact this
  · intro k h1 h2
    have := hspec.2 k h1 h2
    simp only [Bool.not_eq_false'] at this
    rw [lessIdx_true_iff] at this
    exact this

theorem rotateSeg_getD_v (l : List WordCount) (a m b k : Nat) (ham : a ≤ m)
    (hmb : m ≤ b) (hb : b ≤ l.length) (h1 : a ≤ k) (h2 : k < a + (b - m)) :
    (rotateSeg l a m b).getD k dWC = l.getD (m + (k - a)) dWC := by
  unfold rotateSeg
  rw [if_pos ⟨ham, hmb, hb⟩]
  have hsv : (seg l m b).length = b - m := seg_length l m b hmb hb
  have hsu : (seg l a m).length = m - a := seg_length l a m ham (by omega)
  rw [splice_getD_mid l a b _ k h1
    (by rw [List.length_append, hsv, hsu]; omega) (by omega),
    getD_append_lt _ _ _ (by rw [hsv]; omega),
    seg_getD l m b (k - a) (by omega) hb]

theorem rotateSeg_getD_u (l : List WordCount) (a m b k : Nat) (ham : a ≤ m)
    (hmb : m ≤ b) (hb : b ≤ l.length) (h1 : a + (b - m) ≤ k) (h2 : k < b) :
    (rotateSeg l a m b).getD k dWC = l.getD (k - (b - m)) dWC := by
  unfold rotateSeg
  rw [if_pos ⟨ham, hmb, hb⟩]
  have hsv : (seg l m b).length = b - m := seg_length l m b hmb hb
  have hsu : (seg l a m).length = m - a := seg_length l a m ham (by omega)
  rw [splice_getD_mid l a b _ k (by omega)
    (by rw [List.length_append, hsv, hsu]; omega) (by omega),
    getD_append_ge _ _ _ (by rw [hsv]; omega), hsv,
    seg_getD l a m (k - a - (b - m)) (by omega) (by omega)]
  congr 1
  omega

theorem symMergeF_frame (fuel : Nat) :
    ∀ (a m b : Nat) (l : List WordCount) (k : Nat), a ≤ m → m ≤ b →
      b ≤ l.length → (k < a ∨ b ≤ k) →
      (symMergeF fuel a m b l).getD k dWC = l.getD k dWC := by
  induction fuel with
  | zero => intro a m b l k _ _ _ _; rfl
  | succ fuel ih =>
      intro a m b l k ham hmb hb hk
      unfold symMergeF
      split
      · next hma =>
          apply case1move_frame
          rcases hk with hk | hk
          · exact Or.inl hk
          · exact Or.inr (le_trans (bsearchB_le _ _ _ _ (by omega)) hk)
      · split
        · next hbm =>
            apply case2move_frame
            rcases hk with hk | hk
            · exact Or.inl (lt_of_lt_of_le hk (bsearchB_ge _ _ _ _))
            · exact Or.inr hk
        · next hma hbm =>
            simp only []
            set mid := (a + b) / 2 with hmid
            set n := mid + m with hn
            set s0 := (if mid < m then n - b else a) with hs0
            set r0 := (if mid < m then mid else m) with hr0
            set p := n - 1 with hp
            set start :=
              bsearchB (fun c => !lessIdx l (p - c) c) (r0 - s0) s0 r0
              with hstart
            set en := n - start with hen
            have hbounds : a ≤ s0 ∧ s0 ≤ r0 ∧ r0 ≤ m ∧ r0 ≤ mid := by
              rw [hs0, hr0]
              by_cases hcm : mid < m
              · rw [if_pos hcm, if_pos hcm]
                omega
              · rw [if_neg hcm, if_neg hcm]
                omega
            have hsge : s0 ≤ start := by
              rw [hstart]
              exact bsearchB_ge _ _ _ _
            have hsle : start ≤ r0 := by
              rw [hstart]
              exact bsearchB_le _ _ _ _ hbounds.2.1
            have hena : mid ≤ en ∧ en ≤ b := by
              rw [hen, hn]
              rcases hbounds with ⟨h1, h2, h3, h4⟩
              rw [hs0, hr0] at *
              by_cases hcm : mid < m
              · rw [if_pos hcm] at *
                omega
              · rw [if_neg hcm] at *
                omega
            set l1 := (if start < m ∧ m < en then rotateSeg l start m en
              else l) with hl1
            set l2 := (if a < start ∧ start < mid then
              symMergeF fuel a start mid l1 else l1) with hl2
            have hlen1 : l1.length = l.length := by
              rw [hl1]
              split
              · exact rotateSeg_length l start m en
              · rfl
            have hf1 : l1.getD k dWC = l.getD k dWC := by
              rw [hl1]
              split
              · exact rotateSeg_getD_out l start m en k
                  (by rcases hk with hk | hk <;> omega)
              · rfl
            have hlen2 : l2.length = l.length := by
              rw [hl2]
              split
              · rw [symMergeF_length, hlen1]
              · exact hlen1
            have hf2 : l2.getD k dWC = l.getD k dWC := by
              rw [hl2]
              split
              · next hg =>
                  rw [ih a start mid l1 k (by omega) (by omega)
                    (by rw [hlen1]; omega)
                    (by rcases hk with hk | hk <;> omega)]
                  exact hf1
              · exact hf1
            split
            · next hg =>
                rw [ih mid en b l2 k (by omega) (by omega)
                  (by rw [hlen2]; omega)
                  (by rcases hk with hk | hk <;> omega)]
                exact hf2
            · exact hf2

theorem symMergeF_sorted (fuel : Nat) :
    ∀ (a m b : Nat) (l : List WordCount), a ≤ m → m ≤ b → b ≤ l.length →
      b - a ≤ fuel → SortedSeg l a m → SortedSeg l m b →
      SortedSeg (symMergeF fuel a m b l) a b := by
  induction fuel with
  | zero =>
      intro a m b l ham hmb hb hfuel hu hv
      exact sortedSeg_trivial l a b (by omega)
  | succ fuel ih =>
      intro a m b l ham hmb hb hfuel hu hv
      unfold symMergeF
      split
      · next hma =>
          simp only []
          exact symCase1_sorted l a m b (by omega) hmb hb hv
      · split
        · next hma hbm =>
            simp only []
            exact symCase2_sorted l a m b (by omega) ham hb hu
        · next hma hbm =>
            simp only []
            set mid := (a + b) / 2 with hmid
            set n := mid + m with hn
            set s0 := (if mid < m then n - b else a) with hs0
            set r0 := (if mid < m then mid else m) with hr0
            set p := n - 1 with hp
            set start :=
              bsearchB (fun c => !lessIdx l (p - c) c) (r0 - s0) s0 r0
              with hstart
            set en := n - start with hen
            have hbounds : a ≤ s0 ∧ s0 ≤ r0 ∧ r0 ≤ m ∧ r0 ≤ mid ∧
                n ≤ s0 + b := by
              rw [hs0, hr0]
              by_cases hcm : mid < m
              · rw [if_pos hcm, if_pos hcm]
                omega
              · rw [if_neg hcm, if_neg hcm]
                omega
            have hsge : s0 ≤ start := by
              rw [hstart]
              exact bsearchB_ge _ _ _ _
            have hsle : start ≤ r0 := by
              rw [hstart]
              exact bsearchB_le _ _ _ _ hbounds.2.1
            have hsm : start ≤ m := by omega
            have hsmid : start ≤ mid := by omega
            have hmen : m ≤ en := by omega
            have hmiden : mid ≤ en := by omega
            have henb : en ≤ b := by omega
            have hamid : a ≤ mid := by omega
            have hmidb : mid ≤ b := by omega
            -- index ranges of the boundary search
            have hrange : ∀ c, s0 ≤ c → c < r0 →
                a ≤ c ∧ c < m ∧ m ≤ p - c ∧ p - c < b := by
              intro c h1 h2
              by_cases hcm : mid < m
              · rw [if_pos hcm] at hs0 hr0
                refine ⟨by omega, by omega, by omega, by omega⟩
              · rw [if_neg hcm] at hs0 hr0
                refine ⟨by omega, by omega, by omega, by omega⟩
            have hpre : ∀ c c', s0 ≤ c → c ≤ c' → c' < r0 →
                (!lessIdx l (p - c') c') = true →
                (!lessIdx l (p - c) c) = true := by
              intro c c' h1 h2 h3 hB
              obtain ⟨hc'1, hc'2, hc'3, hc'4⟩ := hrange c' (by omega) h3
              obtain ⟨hc1, hc2, hc3, hc4⟩ := hrange c h1 (by omega)
              simp only [Bool.not_eq_true'] at hB ⊢
              rw [lessIdx_false_iff] at hB ⊢
              have hv1 : cnt l (p - c) ≤ cnt l (p - c') :=
                hv (p - c) hc4 (p - c') (by omega) hc'3
              have hu1 : cnt l c' ≤ cnt l c := hu c' hc'2 c h2 hc1
              omega
            have hspec := bsearchB_spec (fun c => !lessIdx l (p - c) c)
              (r0 - s0) s0 r0 (le_refl _) hbounds.2.1 hpre
            have F1 : ∀ c, s0 ≤ c → c < start → cnt l (p - c) < cnt l c := by
              intro c h1 h2
              rw [hstart] at h2
              have := hspec.1 c h1 h2
              simp only [Bool.not_eq_true'] at this
              rw [lessIdx_false_iff] at this
              exact this
            have F2 : ∀ c, start ≤ c → c < r0 → cnt l c ≤ cnt l (p - c) := by
              intro c h1 h2
              rw [hstart] at h1
              have := hspec.2 c h1 h2
              simp only [Bool.not_eq_false'] at this
              rw [lessIdx_true_iff] at this
              exact this
            have J2 : s0 < start → cnt l en < cnt l (start - 1) := by
              intro hlt
              have h := F1 (start - 1) (by omega) (by omega)
              have he : p - (start - 1) = en := by omega
              rw [he] at h
              exact h
            have J3 : start < r0 → cnt l start ≤ cnt l (en - 1) := by
              intro hlt
              have h := F2 start (le_refl _) hlt
              have he : p - start = en - 1 := by omega
              rw [he] at h
              exact h
            set l1 := (if start < m ∧ m < en then rotateSeg l start m en
              else l) with hl1
            have hlen1 : l1.length = l.length := by
              rw [hl1]
              split
              · exact rotateSeg_length l start m en
              · rfl
            have hc_left : ∀ k, k < start → cnt l1 k = cnt l k := by
              intro k hk
              unfold cnt
              rw [hl1]
              split
              · rw [rotateSeg_getD_out l start m en k (Or.inl hk)]
              · rfl
            have hc_right : ∀ k, en ≤ k → cnt l1 k = cnt l k := by
              intro k hk
              unfold cnt
              rw [hl1]
              split
              · rw [rotateSeg_getD_out l start m en k (Or.inr hk)]
              · rfl
            have hc_v : ∀ k, start ≤ k → k < mid →
                cnt l1 k = cnt l (m + (k - start)) := by
              intro k h1 h2
              unfold cnt
              rw [hl1]
              split
              · next hg =>
                  rw [rotateSeg_getD_v l start m en k (by omega) (by omega)
                    (by omega) h1 (by omega)]
              · next hg =>
                  push_neg at hg
                  by_cases hsm' : start = m
                  · have he : m + (k - start) = k := by omega
                    rw [he]
                  · exfalso
                    have : en ≤ m := hg (by omega)
                    omega
            have hc_u : ∀ k, mid ≤ k → k < en →
                cnt l1 k = cnt l (start + (k - mid)) := by
              intro k h1 h2
              unfold cnt
              rw [hl1]
              split
              · next hg =>
                  rw [rotateSeg_getD_u l start m en k (by omega) (by omega)
                    (by omega) (by omega) (by omega)]
                  congr 2
                  omega
              · next hg =>
                  push_neg at hg
                  by_cases hsm' : start = m
                  · exfalso
                    omega
                  · have : en ≤ m := hg (by omega)
                    have he : start + (k - mid) = k := by omega
                    rw [he]
            have hs1_astart : SortedSeg l1 a start := by
              intro q hq p' hpq hp'
              rw [hc_left q hq, hc_left p' (by omega)]
              exact hu q (by omega) p' hpq hp'
            have hs1_startmid : SortedSeg l1 start mid := by
              intro q hq p' hpq hp'
              rw [hc_v q (by omega) hq, hc_v p' hp' (by omega)]
              exact hv (m + (q - start)) (by omega) (m + (p' - start))
                (by omega) (by omega)
            have hs1_miden : SortedSeg l1 mid en := by
              intro q hq p' hpq hp'
              rw [hc_u q (by omega) hq, hc_u p' hp' (by omega)]
              exact hu (start + (q - mid)) (by omega) (start + (p' - mid))
                (by omega) (by omega)
            have hs1_enb : SortedSeg l1 en b := by
              intro q hq p' hpq hp'
              rw [hc_right q (by omega), hc_right p' (by omega)]
              exact hv q hq p' hpq (by omega)
            have hcross1 : CrossGe l1 a mid b := by
              intro x hx y hy
              rw [mem_seg l1 a mid x (by omega)] at hx
              rw [mem_seg l1 mid b y (by omega)] at hy
              obtain ⟨k1, hk1a, hk1m, hk1e⟩ := hx
              obtain ⟨k2, hk2m, hk2b, hk2e⟩ := hy
              subst hk1e
              subst hk2e
              show cnt l1 k2 ≤ cnt l1 k1
              by_cases h1 : k1 < start
              · rw [hc_left k1 h1]
                by_cases h2 : k2 < en
                · rw [hc_u k2 hk2m h2]
                  exact hu (start + (k2 - mid)) (by omega) k1 (by omega) hk1a
                · rw [hc_right k2 (by omega)]
                  by_cases hss : s0 < start
                  · have hJ := J2 hss
                    have h3 : cnt l k2 ≤ cnt l en :=
                      hv k2 hk2b en (by omega) (by omega)
                    have h4 : cnt l (start - 1) ≤ cnt l k1 :=
                      hu (start - 1) (by omega) k1 (by omega) hk1a
                    omega
                  · exfalso
                    by_cases hcm : mid < m
                    · rw [if_pos hcm] at hs0
                      omega
                    · rw [if_neg hcm] at hs0
                      omega
              · rw [hc_v k1 (by omega) hk1m]
                by_cases h2 : k2 < en
                · rw [hc_u k2 hk2m h2]
                  by_cases hsr : start < r0
                  · have hJ := J3 hsr
                    have h3 : cnt l (start + (k2 - mid)) ≤ cnt l start :=
                      hu (start + (k2 - mid)) (by omega) start (by omega)
                        (by omega)
                    have h4 : cnt l (en - 1) ≤ cnt l (m + (k1 - start)) :=
                      hv (en - 1) (by omega) (m + (k1 - start)) (by omega)
                        (by omega)
                    omega
                  · exfalso
                    by_cases hcm : mid < m
                    · rw [if_pos hcm] at hr0
                      omega
                    · rw [if_neg hcm] at hr0
                      omega
                · rw [hc_right k2 (by omega)]
                  exact hv k2 hk2b (m + (k1 - start)) (by omega) (by omega)
            set l2 := (if a < start ∧ start < mid then
              symMergeF fuel a start mid l1 else l1) with hl2
            have hlen2 : l2.length = l.length := by
              rw [hl2]
              split
              · rw [symMergeF_length, hlen1]
              · exact hlen1
            have hperm2 : l2.Perm l1 := by
              rw [hl2]
              split
              · exact symMergeF_perm fuel a start mid l1
              · exact List.Perm.refl l1
            have hfr2 : ∀ k, k < a ∨ mid ≤ k →
                l2.getD k dWC = l1.getD k dWC := by
              intro k hk
              rw [hl2]
              split
              · next hg =>
                  exact symMergeF_frame fuel a start mid l1 k (by omega)
                    (by omega) (by omega) hk
              · rfl
            have hs2_amid : SortedSeg l2 a mid := by
              rw [hl2]
              split
              · next hg =>
                  exact ih a start mid l1 (by omega) (by omega) (by omega)
                    (by omega) hs1_astart hs1_startmid
              · next hg =>
                  push_neg at hg
                  by_cases hsa : start = a
                  · rw [← hsa]
                    exact hs1_startmid
                  · have : start = mid := by
                      have := hg (by omega)
                      omega
                    rw [← this]
                    exact hs1_astart
            have hs2_miden : SortedSeg l2 mid en := by
              intro q hq p' hpq hp'
              unfold cnt
              rw [hfr2 q (Or.inr (by omega)), hfr2 p' (Or.inr hp')]
              exact hs1_miden q hq p' hpq hp'
            have hs2_enb : SortedSeg l2 en b := by
              intro q hq p' hpq hp'
              unfold cnt
              rw [hfr2 q (Or.inr (by omega)), hfr2 p' (Or.inr (by omega))]
              exact hs1_enb q hq p' hpq hp'
            have hcross2 : CrossGe l2 a mid b := by
              intro x hx y hy
              have hx' : x ∈ seg l1 a mid := by
                have hp2 : (seg l2 a mid).Perm (seg l1 a mid) :=
                  seg_perm_of_perm_frame l1 l2 a mid (by omega) hperm2
                    (fun k hk => hfr2 k hk) hamid (by omega)
                exact hp2.mem_iff.mp hx
              have hy' : y ∈ seg l1 mid b := by
                have he : seg l2 mid b = seg l1 mid b :=
                  seg_eq_of_getD_eq l1 l2 mid b (by omega) (by omega)
                    (fun k h1 h2 => hfr2 k (Or.inr h1))
                rw [he] at hy
                exact hy
              exact hcross1 x hx' y hy'
            split
            · next hg =>
                obtain ⟨hg3, hg4⟩ := hg
                have hamid' : a < mid := by omega
                have hlast : SortedSeg (symMergeF fuel mid en b l2) mid b :=
                  ih mid en b l2 (by omega) (by omega) (by omega) (by omega)
                    hs2_miden hs2_enb
                have hlen3 : (symMergeF fuel mid en b l2).length = l.length := by
                  rw [symMergeF_length, hlen2]
                have hfr3 : ∀ k, k < mid ∨ b ≤ k →
                    (symMergeF fuel mid en b l2).getD k dWC =
                      l2.getD k dWC := by
                  intro k hk
                  exact symMergeF_frame fuel mid en b l2 k (by omega)
                    (by omega) (by omega) hk
                have hs3_amid : SortedSeg (symMergeF fuel mid en b l2) a mid := by
                  intro q hq p' hpq hp'
                  unfold cnt
                  rw [hfr3 q (Or.inl hq), hfr3 p' (Or.inl (by omega))]
                  exact hs2_amid q hq p' hpq hp'
                have hcross3 : CrossGe (symMergeF fuel mid en b l2) a mid b := by
                  intro x hx y hy
                  have hx' : x ∈ seg l2 a mid := by
                    have he : seg (symMergeF fuel mid en b l2) a mid =
                        seg l2 a mid :=
                      seg_eq_of_getD_eq l2 _ a mid (by omega) (by omega)
                        (fun k h1 h2 => hfr3 k (Or.inl h2))
                    rw [he] at hx
                    exact hx
                  have hy' : y ∈ seg l2 mid b := by
                    have hp3 : (seg (symMergeF fuel mid en b l2) mid b).Perm
                        (seg l2 mid b) :=
                      seg_perm_of_perm_frame l2 _ mid b (by omega)
                        (symMergeF_perm fuel mid en b l2)
                        (fun k hk => hfr3 k hk) hmidb (by omega)
                    exact hp3.mem_iff.mp hy
                  exact hcross2 x hx' y hy'
                apply sortedSeg_glue _ a mid b hs3_amid hlast
                intro p' q hp' hpm hmq hq
                have hx := (mem_seg (symMergeF fuel mid en b l2) a mid _
                  (by omega)).mpr ⟨p', hp', hpm, rfl⟩
                have hy := (mem_seg (symMergeF fuel mid en b l2) mid b _
                  (by omega)).mpr ⟨q, hmq, hq, rfl⟩
                exact hcross3 _ hx _ hy
            · next hg =>
                push_neg at hg
                have hs2_midb : SortedSeg l2 mid b := by
                  by_cases hme : en = mid
                  · exact hme ▸ hs2_enb
                  · have hbe : en = b := by
                      have := hg (by omega)
                      omega
                    exact hbe ▸ hs2_miden
                apply sortedSeg_glue l2 a mid b hs2_amid hs2_midb
                intro p' q hp' hpm hmq hq
                have hx := (mem_seg l2 a mid _ (by omega)).mpr
                  ⟨p', hp', hpm, rfl⟩
                have hy := (mem_seg l2 mid b _ (by omega)).mpr
                  ⟨q, hmq, hq, rfl⟩
                exact hcross2 _ hx _ hy

theorem insBlocks_sorted : ∀ (fuel a b n q0 : Nat) (l : List WordCount),
    a = q0 * 20 → b = a + 20 → n ≤ l.length → n + 20 ≤ b + 20 * fuel →
    (∀ q, q < q0 → SortedSeg l (q * 20) (min ((q + 1) * 20) n)) →
    Blocks 20 n (insBlocks fuel a b n l) := by
  intro fuel
  induction fuel with
  | zero =>
      intro a b n q0 l ha hb hn hfuel hprev
      intro q
      by_cases hq : q < q0
      · exact hprev q hq
      · apply sortedSeg_trivial
        have h1 : q0 * 20 ≤ q * 20 := by
          exact Nat.mul_le_mul_right 20 (by omega)
        omega
  | succ fuel ih =>
      intro a b n q0 l ha hb hn hfuel hprev
      unfold insBlocks
      split
      · next hbn =>
          apply ih b (b + 20) n (q0 + 1)
          · omega
          · rfl
          · rw [insertionSort_length]; exact hn
          · omega
          · intro q hq
            by_cases hq0 : q < q0
            · apply sortedSeg_congr l _ (q * 20) (min ((q + 1) * 20) n)
              · intro k h1 h2
                unfold cnt
                rw [insertionSort_frame l a b k (Or.inl ?_)]
                have : (q + 1) * 20 ≤ q0 * 20 :=
                  Nat.mul_le_mul_right 20 (by omega)
                omega
              · exact hprev q hq0
            · have hq0' : q = q0 := by omega
              subst hq0'
              have hmin : min ((q + 1) * 20) n = b := by
                have : (q + 1) * 20 = b := by omega
                omega
              rw [hmin, ha]
              have := insertionSort_sorted l a b (by omega)
              rw [ha] at this
              exact this
      · next hbn =>
          intro q
          by_cases hq0 : q < q0
          · apply sortedSeg_congr l _ (q * 20) (min ((q + 1) * 20) n)
            · intro k h1 h2
              unfold cnt
              rw [insertionSort_frame l a n k (Or.inl ?_)]
              have : (q + 1) * 20 ≤ q0 * 20 :=
                Nat.mul_le_mul_right 20 (by omega)
              omega
            · exact hprev q hq0
          · by_cases hq0' : q = q0
            · subst hq0'
              have hmin : min ((q + 1) * 20) n = n := by omega
              rw [hmin, ha]
              have := insertionSort_sorted l a n hn
              rw [ha] at this
              exact this
            · apply sortedSeg_trivial
              have h1 : (q0 + 1) * 20 ≤ q * 20 :=
                Nat.mul_le_mul_right 20 (by omega)
              omega

theorem mergePass_sorted : ∀ (fuel a b bs n q0 : Nat) (l : List WordCount),
    0 < bs → a = q0 * (2 * bs) → b = a + 2 * bs → n ≤ l.length →
    n + 2 * bs ≤ b + 2 * bs * fuel →
    (∀ q, q < q0 → SortedSeg l (q * (2 * bs)) (min ((q + 1) * (2 * bs)) n)) →
    (∀ q, a ≤ q * bs → SortedSeg l (q * bs) (min ((q + 1) * bs) n)) →
    Blocks (2 * bs) n (mergePass fuel a b bs n l) := by
  intro fuel
  induction fuel with
  | zero =>
      intro a b bs n q0 l hbs ha hb hn hfuel hprev hsmall
      intro q
      by_cases hq : q < q0
      · exact hprev q hq
      · apply sortedSeg_trivial
        have h1 : q0 * (2 * bs) ≤ q * (2 * bs) :=
          Nat.mul_le_mul_right (2 * bs) (by omega)
        omega
  | succ fuel ih =>
      intro a b bs n q0 l hbs ha hb hn hfuel hprev hsmall
      unfold mergePass
      split
      · next hbn =>
          have hrun1 : SortedSeg l a (a + bs) := by
            have h := hsmall (2 * q0) (by rw [ha]; ring_nf; omega)
            have e1 : 2 * q0 * bs = a := by rw [ha]; ring
            have e2 : min ((2 * q0 + 1) * bs) n = a + bs := by
              have : (2 * q0 + 1) * bs = a + bs := by rw [ha]; ring
              omega
            rw [e1, e2] at h
            exact h
          have hrun2 : SortedSeg l (a + bs) b := by
            have h := hsmall (2 * q0 + 1) (by
              have : (2 * q0 + 1) * bs = a + bs := by rw [ha]; ring
              omega)
            have e1 : (2 * q0 + 1) * bs = a + bs := by rw [ha]; ring
            have e2 : min ((2 * q0 + 1 + 1) * bs) n = b := by
              have : (2 * q0 + 1 + 1) * bs = b := by rw [hb, ha]; ring
              omega
            rw [e1, e2] at h
            exact h
          have hmerged : SortedSeg (symMergeF (b - a) a (a + bs) b l) a b :=
            symMergeF_sorted (b - a) a (a + bs) b l (by omega) (by omega)
              (by omega) (le_refl _) hrun1 hrun2
          have hframe : ∀ k, k < a ∨ b ≤ k →
              (symMergeF (b - a) a (a + bs) b l).getD k dWC =
                l.getD k dWC :=
            fun k hk => symMergeF_frame (b - a) a (a + bs) b l k (by omega)
              (by omega) (by omega) hk
          have hlen : (symMergeF (b - a) a (a + bs) b l).length = l.length :=
            symMergeF_length (b - a) a (a + bs) b l
          apply ih b (b + 2 * bs) bs n (q0 + 1)
          · exact hbs
          · rw [hb, ha]; ring
          · rfl
          · omega
          · have hmul : 2 * bs * (fuel + 1) = 2 * bs * fuel + 2 * bs := by
              ring
            omega
          · intro q hq
            by_cases hq0 : q < q0
            · apply sortedSeg_congr l _ (q * (2 * bs))
                (min ((q + 1) * (2 * bs)) n)
              · intro k h1 h2
                unfold cnt
                rw [hframe k (Or.inl ?_)]
                have : (q + 1) * (2 * bs) ≤ q0 * (2 * bs) :=
                  Nat.mul_le_mul_right (2 * bs) (by omega)
                omega
              · exact hprev q hq0
            · have hq0' : q = q0 := by omega
              subst hq0'
              have hmin : min ((q + 1) * (2 * bs)) n = b := by
                have : (q + 1) * (2 * bs) = b := by rw [hb, ha]; ring
                omega
              rw [hmin, ha]
              have h := hmerged
              rw [ha] at h
              exact h
          · intro q hq
            apply sortedSeg_congr l _ (q * bs) (min ((q + 1) * bs) n)
            · intro k h1 h2
              unfold cnt
              rw [hframe k (Or.inr (by omega))]
            · exact hsmall q (by omega)
      · next hbn =>
          split
          · next hpart =>
              have hrun1 : SortedSeg l a (a + bs) := by
                have h := hsmall (2 * q0) (by rw [ha]; ring_nf; omega)
                have e1 : 2 * q0 * bs = a := by rw [ha]; ring
                have e2 : min ((2 * q0 + 1) * bs) n = a + bs := by
                  have : (2 * q0 + 1) * bs = a + bs := by rw [ha]; ring
                  omega
                rw [e1, e2] at h
                exact h
              have hrun2 : SortedSeg l (a + bs) n := by
                have h := hsmall (2 * q0 + 1) (by
                  have : (2 * q0 + 1) * bs = a + bs := by rw [ha]; ring
                  omega)
                have e1 : (2 * q0 + 1) * bs = a + bs := by rw [ha]; ring
                have e2 : min ((2 * q0 + 1 + 1) * bs) n = n := by
                  have : (2 * q0 + 1 + 1) * bs = b := by rw [hb, ha]; ring
                  omega
                rw [e1, e2] at h
                exact h
              have hmerged :
                  SortedSeg (symMergeF (n - a) a (a + bs) n l) a n :=
                symMergeF_sorted (n - a) a (a + bs) n l (by omega) (by omega)
                  hn (le_refl _) hrun1 hrun2
              have hframe : ∀ k, k < a ∨ n ≤ k →
                  (symMergeF (n - a) a (a + bs) n l).getD k dWC =
                    l.getD k dWC :=
                fun k hk => symMergeF_frame (n - a) a (a + bs) n l k
                  (by omega) (by omega) hn hk
              intro q
              by_cases hq0 : q < q0
              · apply sortedSeg_congr l _ (q * (2 * bs))
                  (min ((q + 1) * (2 * bs)) n)
                · intro k h1 h2
                  unfold cnt
                  rw [hframe k (Or.inl ?_)]
                  have : (q + 1) * (2 * bs) ≤ q0 * (2 * bs) :=
                    Nat.mul_le_mul_right (2 * bs) (by omega)
                  omega
                · exact hprev q hq0
              · by_cases hq0' : q = q0
                · subst hq0'
                  have hmin : min ((q + 1) * (2 * bs)) n = n := by
                    have : (q + 1) * (2 * bs) = b := by rw [hb, ha]; ring
                    omega
                  rw [hmin, ha]
                  have h := hmerged
                  rw [ha] at h
                  exact h
                · apply sortedSeg_trivial
                  have h1 : b ≤ q * (2 * bs) := by
                    have e : b = (q0 + 1) * (2 * bs) := by rw [hb, ha]; ring
                    rw [e]
                    exact Nat.mul_le_mul_right (2 * bs) (by omega)
                  omega
          · next hpart =>
              intro q
              by_cases hq0 : q < q0
              · exact hprev q hq0
              · by_cases hq0' : q = q0
                · subst hq0'
                  have hmin : min ((q + 1) * (2 * bs)) n = n := by
                    have : (q + 1) * (2 * bs) = b := by rw [hb, ha]; ring
                    omega
                  rw [hmin]
                  have h := hsmall (2 * q) (by rw [ha]; ring_nf; omega)
                  have e1 : 2 * q * bs = a := by rw [ha]; ring
                  have e2 : min ((2 * q + 1) * bs) n = n := by
                    have : (2 * q + 1) * bs = a + bs := by rw [ha]; ring
                    omega
                  rw [e1, e2] at h
                  rw [ha] at h
                  exact h
                · apply sortedSeg_trivial
                  have h1 : b ≤ q * (2 * bs) := by
                    have e : b = (q0 + 1) * (2 * bs) := by rw [hb, ha]; ring
                    rw [e]
                    exact Nat.mul_le_mul_right (2 * bs) (by omega)
                  omega

theorem mergeAll_sorted : ∀ (fuel bs n : Nat) (l : List WordCount),
    0 < bs → n ≤ l.length → n ≤ 2 ^ fuel * bs → Blocks bs n l →
    SortedSeg (mergeAll fuel bs n l) 0 n := by
  intro fuel
  induction fuel with
  | zero =>
      intro bs n l hbs hn hpow hblocks
      have h := hblocks 0
      rw [pow_zero, one_mul] at hpow
      have e1 : (0 : Nat) * bs = 0 := by ring
      have e2 : min ((0 + 1) * bs) n = n := by
        have : (0 + 1) * bs = bs := by ring
        omega
      rw [e1, e2] at h
      exact h
  | succ fuel ih =>
      intro bs n l hbs hn hpow hblocks
      unfold mergeAll
      split
      · next hbn =>
          have hstep : Blocks (2 * bs) n
              (mergePass (n + 1) 0 (2 * bs) bs n l) := by
            apply mergePass_sorted (n + 1) 0 (2 * bs) bs n 0 l hbs (by ring)
              (by ring) hn
            · have h1 : n + 1 ≤ 2 * bs * (n + 1) :=
                Nat.le_mul_of_pos_left (n + 1) (by omega)
              omega
            · intro q hq
              omega
            · intro q hq
              exact hblocks q
          apply ih (2 * bs) n _ (by omega)
          · rw [mergePass_length]
            exact hn
          · have : 2 ^ fuel * (2 * bs) = 2 ^ (fuel + 1) * bs := by ring
            rw [this]
            exact hpow
          · exact hstep
      · next hbn =>
          have h := hblocks 0
          have e1 : (0 : Nat) * bs = 0 := by ring
          have e2 : min ((0 + 1) * bs) n = n := by
            have : (0 + 1) * bs = bs := by ring
            omega
          rw [e1, e2] at h
          exact h

theorem stableSort_sorted (l : List WordCount) :
    SortedSeg (stableSort l) 0 l.length := by
  unfold stableSort
  apply mergeAll_sorted (l.length + 1) 20 l.length _ (by omega)
  · rw [insBlocks_length]
  · have h1 : l.length < 2 ^ l.length := Nat.lt_two_pow l.length
    have h2 : 2 ^ l.length ≤ 2 ^ (l.length + 1) :=
      Nat.pow_le_pow_right (by omega) (by omega)
    have h3 : 2 ^ (l.length + 1) ≤ 2 ^ (l.length + 1) * 20 :=
      Nat.le_mul_of_pos_right _ (by omega)
    omega
  · apply insBlocks_sorted (l.length + 1) 0 20 l.length 0 l (by ring) rfl
      (le_refl _) (by omega)
    intro q hq
    omega

theorem getD_eq_getElem_of_lt (l : List WordCount) (i : Nat)
    (h : i < l.length) : l.getD i dWC = l[i] := by
  rw [List.getD_eq_getElem?_getD, List.getElem?_eq_getElem h]
  rfl

theorem sortedSeg_take (l : List WordCount) (t : Nat)
    (h : SortedSeg l 0 l.length) :
    SortedSeg (l.take t) 0 (l.take t).length := by
  intro q hq p hpq hp
  have hlen : (l.take t).length = min t l.length := List.length_take t l
  have e : ∀ k, k < t → k < l.length → cnt (l.take t) k = cnt l k := by
    intro k hk hkl
    unfold cnt
    rw [List.getD_eq_getElem?_getD, List.getD_eq_getElem?_getD,
      List.getElem?_take, if_pos hk]
  rw [e q (by omega) (by omega), e p (by omega) (by omega)]
  exact h q (by omega) p hpq (by omega)

theorem completeWC_sorted (pfx : String) (freqs : List (String × Int)) :
    SortedSeg (completeWC pfx freqs) 0 (completeWC pfx freqs).length := by
  unfold completeWC
  rw [stableSort_length]
  exact stableSort_sorted (matchWC pfx freqs)

/-- C4: the completion result, truncated by `firstN` to any nonnegative
limit, is what the claim says: `firstN` returns the word projection of the
truncated sorted candidate list, that list is sorted by count descending,
and every matching entry of the map is either in the truncated list or has
a count no greater than that of every returned entry (omission only by
truncation). -/
theorem complete_ranked (freqs : List (String × Int)) (pfx : String)
    (n : Int) (hn : 0 ≤ n) :
    firstN (complete pfx freqs) n =
      some (((completeWC pfx freqs).take n.toNat).map WordCount.Word) ∧
    SortedSeg ((completeWC pfx freqs).take n.toNat) 0
      ((completeWC pfx freqs).take n.toNat).length ∧
    (∀ kv ∈ freqs, hasPre pfx kv.1 = true →
      (⟨kv.1, kv.2⟩ : WordCount) ∈ (completeWC pfx freqs).take n.toNat ∨
      (∀ r ∈ (completeWC pfx freqs).take n.toNat, kv.2 ≤ r.Count)) := by
  refine ⟨?_, ?_, ?_⟩
  · rw [firstN_eq_take _ n hn]
    congr 1
    unfold complete
    rw [List.map_take]
  · exact sortedSeg_take _ n.toNat (completeWC_sorted pfx freqs)
  · intro kv hkv hpre
    set S := completeWC pfx freqs with hS
    have hsorted : SortedSeg S 0 S.length := completeWC_sorted pfx freqs
    have hin : (⟨kv.1, kv.2⟩ : WordCount) ∈ S := by
      rw [hS]
      unfold completeWC
      rw [(stableSort_perm (matchWC pfx freqs)).mem_iff, mem_matchWC]
      exact ⟨kv, hkv, hpre, rfl⟩
    by_cases hmem : (⟨kv.1, kv.2⟩ : WordCount) ∈ S.take n.toNat
    · exact Or.inl hmem
    · right
      intro r hr
      obtain ⟨jw, hjw, hjw_eq⟩ := List.getElem_of_mem hin
      obtain ⟨jr, hjr, hjr_eq⟩ := List.getElem_of_mem hr
      have hjr_t : jr < n.toNat := by
        have := List.length_take n.toNat S
        omega
      have hjr_S : jr < S.length := by
        have := List.length_take n.toNat S
        omega
      have hr_S : S[jr] = r := by
        rw [← hjr_eq, List.getElem_take S]
      have hjw_t : n.toNat ≤ jw := by
        by_contra hcon
        push_neg at hcon
        apply hmem
        have hjwt : jw < (S.take n.toNat).length := by
          have := List.length_take n.toNat S
          omega
        have htk : (S.take n.toNat)[jw] = S[jw] := List.getElem_take S
        rw [← hjw_eq, ← htk]
        exact List.getElem_mem _
      have hle : cnt S jw ≤ cnt S jr :=
        hsorted jw hjw jr (by omega) (by omega)
      unfold cnt at hle
      rw [getD_eq_getElem_of_lt S jw hjw, getD_eq_getElem_of_lt S jr hjr_S,
        hjw_eq, hr_S] at hle
      exact hle

/-- Witness for `complete_ranked` at a concrete input. -/
theorem complete_ranked_witness :
    firstN (complete "a" [("ab", (2 : Int)), ("b", 1), ("ax", 2)]) 1 =
      some (((completeWC "a" [("ab", (2 : Int)), ("b", 1), ("ax", 2)]).take
        (Int.toNat 1)).map WordCount.Word) ∧
    SortedSeg ((completeWC "a" [("ab", (2 : Int)), ("b", 1), ("ax", 2)]).take
      (Int.toNat 1)) 0
      ((completeWC "a" [("ab", (2 : Int)), ("b", 1), ("ax", 2)]).take
        (Int.toNat 1)).length ∧
    (∀ kv ∈ [("ab", (2 : Int)), ("b", 1), ("ax", 2)],
      hasPre "a" kv.1 = true →
      (⟨kv.1, kv.2⟩ : WordCount) ∈
        (completeWC "a" [("ab", (2 : Int)), ("b", 1), ("ax", 2)]).take
          (Int.toNat 1) ∨
      (∀ r ∈ (completeWC "a" [("ab", (2 : Int)), ("b", 1), ("ax", 2)]).take
        (Int.toNat 1), kv.2 ≤ r.Count)) :=
  complete_ranked [("ab", (2 : Int)), ("b", 1), ("ax", 2)] "a" 1 (by decide)

end Autocomplete
